import Mathlib

/-!
Shallow embedding of the reconciliation (diff) engine and revision-history
chain of the liminal-orm repository, together with theorems settling the
frozen claims about it.

Sources embedded (file and function names follow the repository):
- `liminal/base/base_operation.py` (`BaseOperation.order`, `__lt__`)
- `liminal/base/compare_operation.py` (`CompareOperation`, `__lt__`)
- `liminal/dropdowns/operations.py`, `liminal/entity_schemas/operations.py`
  (the per-kind `order : ClassVar[int]` constants)
- `liminal/base/properties/base_field_properties.py` (`BaseFieldProperties.merge`)
- `liminal/dropdowns/compare.py` (`compare_dropdowns`)
- `liminal/entity_schemas/compare.py` (`compare_entity_schemas`, skeleton)
- `liminal/migrate/components.py` (`get_full_migration_operations`,
  `execute_operations`)
- `liminal/migrate/revisions_timeline.py` (`RevisionsTimeline`)
-/

/-! ## Python dict as an insertion-ordered association list

Python dicts preserve first-insertion position on key overwrite; lookups
return the value of the (unique) entry with the key. -/

/-- `d[k] = v` on a Python dict: replace the value at the first (unique)
occurrence of `k`, else append a fresh entry at the end. -/
def dictSet {α : Type} (m : List (String × α)) (k : String) (v : α) :
    List (String × α) :=
  match m with
  | [] => [(k, v)]
  | (k0, v0) :: rest =>
    if k0 = k then (k, v) :: rest else (k0, v0) :: dictSet rest k v

/-- `d.get(k)` / `d[k]` lookup on a Python dict. -/
def dictGet {α : Type} (m : List (String × α)) (k : String) : Option α :=
  match m with
  | [] => none
  | (k0, v0) :: rest => if k0 = k then some v0 else dictGet rest k

theorem dictGet_dictSet_self {α : Type} (m : List (String × α)) (k : String)
    (v : α) : dictGet (dictSet m k v) k = some v := by
  induction m with
  | nil => simp [dictSet, dictGet]
  | cons hd tl ih =>
    obtain ⟨k0, v0⟩ := hd
    by_cases h : k0 = k <;> simp [dictSet, dictGet, h, ih]

theorem dictGet_dictSet_ne {α : Type} (m : List (String × α)) (k k' : String)
    (v : α) (h : k' ≠ k) : dictGet (dictSet m k' v) k = dictGet m k := by
  induction m with
  | nil => simp [dictSet, dictGet, h]
  | cons hd tl ih =>
    obtain ⟨k0, v0⟩ := hd
    by_cases h0 : k0 = k'
    · subst h0
      simp [dictSet, dictGet, h]
    · simp [dictSet, dictGet, h0]
      by_cases h1 : k0 = k <;> simp [dictGet, h1, ih]

theorem dictSet_fresh {α : Type} (m : List (String × α)) (k : String) (v : α)
    (h : k ∉ m.map (·.1)) : dictSet m k v = m ++ [(k, v)] := by
  induction m with
  | nil => simp [dictSet]
  | cons hd tl ih =>
    obtain ⟨k0, v0⟩ := hd
    simp only [List.map_cons, List.mem_cons, not_or] at h
    simp [dictSet, Ne.symm h.1, ih h.2]

theorem dictGet_map_value {α β : Type} (m : List (String × α))
    (f : α → β) (k : String) :
    dictGet (m.map (fun p => (p.1, f p.2))) k = (dictGet m k).map f := by
  induction m with
  | nil => simp [dictGet]
  | cons hd tl ih =>
    obtain ⟨k0, v0⟩ := hd
    by_cases h : k0 = k <;> simp [dictGet, h, ih]

/-- Keys of a dict after `dictSet`: unchanged if the key was present,
appended otherwise. Either way membership of any other key is unchanged. -/
theorem mem_keys_dictSet {α : Type} (m : List (String × α)) (k k' : String)
    (v : α) : k ∈ (dictSet m k' v).map (·.1) ↔ k = k' ∨ k ∈ m.map (·.1) := by
  induction m with
  | nil => simp [dictSet]
  | cons hd tl ih =>
    obtain ⟨k0, v0⟩ := hd
    by_cases h : k0 = k'
    · subst h
      simp [dictSet]
    · simp [dictSet, h, ih]
      tauto

/-! ## Operations

One constructor per concrete `BaseOperation` subclass found under
`liminal/dropdowns/operations.py` and `liminal/entity_schemas/operations.py`,
carrying the constructor arguments of the source class (payloads that no
embedded function ever constructs or inspects are abbreviated to the
target-identifier arguments). -/

inductive Operation where
  | createDropdown (dropdownName : String) (dropdownOptions : List String)
  | archiveDropdown (dropdownName : String)
  | unarchiveDropdown (dropdownName : String)
  | updateDropdownName (dropdownName newDropdownName : String)
  | createDropdownOption (dropdownName optionToAdd : String) (index : Nat)
  | archiveDropdownOption (dropdownName optionToRemove : String)
      (index : Option Nat)
  | updateDropdownOption (dropdownName oldOptionName newOptionName : String)
  | reorderDropdownOptions (dropdownName : String) (newOrder : List String)
  | createEntitySchema (whSchemaName : String)
  | archiveEntitySchema (whSchemaName : String)
  | unarchiveEntitySchema (whSchemaName : String)
  | updateEntitySchema (whSchemaName : String)
  | updateEntitySchemaName (whSchemaName newName : String)
  | createEntitySchemaField (whSchemaName whFieldName : String) (index : Nat)
  | archiveEntitySchemaField (whSchemaName whFieldName : String)
      (index : Option Nat)
  | unarchiveEntitySchemaField (whSchemaName whFieldName : String)
      (index : Option Nat)
  | updateEntitySchemaField (whSchemaName whFieldName : String)
  | updateEntitySchemaFieldName (whSchemaName whFieldName newName : String)
  | reorderEntitySchemaFields (whSchemaName : String) (newOrder : List String)
deriving DecidableEq, Repr

/-- The per-kind `order : ClassVar[int]` constants, copied from
`liminal/dropdowns/operations.py` and `liminal/entity_schemas/operations.py`
(each value is the literal in the source, including `14` for
`UpdateEntitySchemaField` at `entity_schemas/operations.py:452`). -/
def Operation.order : Operation → Nat
  | createDropdown _ _ => 10
  | updateDropdownName _ _ => 20
  | unarchiveDropdown _ => 30
  | createDropdownOption _ _ _ => 40
  | updateDropdownOption _ _ _ => 50
  | archiveDropdownOption _ _ _ => 60
  | reorderDropdownOptions _ _ => 70
  | createEntitySchema _ => 80
  | updateEntitySchema _ => 90
  | updateEntitySchemaName _ _ => 100
  | unarchiveEntitySchema _ => 110
  | createEntitySchemaField _ _ _ => 120
  | unarchiveEntitySchemaField _ _ _ => 130
  | updateEntitySchemaField _ _ => 14
  | updateEntitySchemaFieldName _ _ _ => 150
  | archiveEntitySchemaField _ _ _ => 160
  | reorderEntitySchemaFields _ _ => 170
  | archiveEntitySchema _ => 180
  | archiveDropdown _ => 190

/-- `CompareOperation` (`liminal/base/compare_operation.py`): a forward
operation paired with its reverse. `__lt__` compares `self.op.order`. -/
structure CompareOperation where
  op : Operation
  reverseOp : Operation
deriving DecidableEq, Repr

/-- `CompareOperation.__lt__` (compare_operation.py:12-13). -/
def CompareOperation.lt (a b : CompareOperation) : Prop :=
  a.op.order < b.op.order

/-- Python's built-in `sorted` on `CompareOperation` lists: a stable sort
whose comparison is `__lt__`, i.e. it keeps `a` before `b` iff
`not (b < a)`, which is `a.op.order ≤ b.op.order`. On a total preorder the
stable sort is unique; it is realized here by insertion sort. -/
def pySorted (l : List CompareOperation) : List CompareOperation :=
  List.insertionSort (fun a b => a.op.order ≤ b.op.order) l

/-- The §4.3 precedence table of the specification, modelled from the
spec's words (used only to compare the spec's table against the code's
`order` constants). -/
def specTableOrder : Operation → Nat
  | .createDropdown _ _ => 10
  | .updateDropdownName _ _ => 20
  | .unarchiveDropdown _ => 30
  | .createDropdownOption _ _ _ => 40
  | .updateDropdownOption _ _ _ => 50
  | .archiveDropdownOption _ _ _ => 60
  | .reorderDropdownOptions _ _ => 70
  | .createEntitySchema _ => 80
  | .updateEntitySchema _ => 90
  | .updateEntitySchemaName _ _ => 100
  | .unarchiveEntitySchema _ => 110
  | .createEntitySchemaField _ _ _ => 120
  | .unarchiveEntitySchemaField _ _ _ => 130
  | .updateEntitySchemaField _ _ => 140
  | .updateEntitySchemaFieldName _ _ _ => 150
  | .archiveEntitySchemaField _ _ _ => 160
  | .reorderEntitySchemaFields _ _ => 170
  | .archiveEntitySchema _ => 180
  | .archiveDropdown _ => 190

/-! ## Field properties and the property diff
(`liminal/base/properties/base_field_properties.py`)

`BaseFieldProperties` has eleven public optional fields (the `_archived`
private attribute is excluded from `model_dump()` and hence from `merge`).
The Benchling field-type enum is represented by its string value; the
diff logic never inspects it. -/

structure FieldProperties where
  name : Option String := none
  warehouse_name : Option String := none
  type : Option String := none
  required : Option Bool := none
  is_multi : Option Bool := none
  parent_link : Option Bool := none
  dropdown_link : Option String := none
  entity_link : Option String := none
  tooltip : Option String := none
  decimal_places : Option Int := none
  unit_name : Option String := none
deriving DecidableEq, Repr

/-- One dict entry of the diff produced by `merge`:
`if getattr(self, k) != new_val: diff[k] = new_val`
(base_field_properties.py:116-120). `none` means the key is absent. -/
def diffField {α : Type} [DecidableEq α] (old new : α) : Option α :=
  if new ≠ old then some new else none

/-- Applying one diff entry as a partial update: an absent key leaves the
field untouched. -/
def applyField {α : Type} (cur : α) (d : Option α) : α := d.getD cur

/-- The diff dictionary returned by `BaseFieldProperties.merge`: one
optional entry per public field. -/
structure FieldDiff where
  name : Option (Option String) := none
  warehouse_name : Option (Option String) := none
  type : Option (Option String) := none
  required : Option (Option Bool) := none
  is_multi : Option (Option Bool) := none
  parent_link : Option (Option Bool) := none
  dropdown_link : Option (Option String) := none
  entity_link : Option (Option String) := none
  tooltip : Option (Option String) := none
  decimal_places : Option (Option Int) := none
  unit_name : Option (Option String) := none
deriving DecidableEq, Repr

/-- `BaseFieldProperties.merge` (base_field_properties.py:102-120):
`self.merge(new_props)` iterates over `new_props.model_dump()` and keeps
`new_props`'s value for every field on which the two bags differ. -/
def FieldProperties.merge (self newProps : FieldProperties) : FieldDiff where
  name := diffField self.name newProps.name
  warehouse_name := diffField self.warehouse_name newProps.warehouse_name
  type := diffField self.type newProps.type
  required := diffField self.required newProps.required
  is_multi := diffField self.is_multi newProps.is_multi
  parent_link := diffField self.parent_link newProps.parent_link
  dropdown_link := diffField self.dropdown_link newProps.dropdown_link
  entity_link := diffField self.entity_link newProps.entity_link
  tooltip := diffField self.tooltip newProps.tooltip
  decimal_places := diffField self.decimal_places newProps.decimal_places
  unit_name := diffField self.unit_name newProps.unit_name

/-- Applying a diff dictionary to a property bag as a partial update
(fields without an entry are untouched). -/
def FieldProperties.applyDiff (p : FieldProperties) (d : FieldDiff) :
    FieldProperties where
  name := applyField p.name d.name
  warehouse_name := applyField p.warehouse_name d.warehouse_name
  type := applyField p.type d.type
  required := applyField p.required d.required
  is_multi := applyField p.is_multi d.is_multi
  parent_link := applyField p.parent_link d.parent_link
  dropdown_link := applyField p.dropdown_link d.dropdown_link
  entity_link := applyField p.entity_link d.entity_link
  tooltip := applyField p.tooltip d.tooltip
  decimal_places := applyField p.decimal_places d.decimal_places
  unit_name := applyField p.unit_name d.unit_name

theorem applyField_diffField {α : Type} [DecidableEq α] (o n : α) :
    applyField o (diffField o n) = n := by
  by_cases h : n = o <;> simp [applyField, diffField, h]

theorem applyField_diffField_back {α : Type} [DecidableEq α] (o n : α) :
    applyField (applyField o (diffField o n)) (diffField n o) = o := by
  by_cases h : n = o
  · simp [applyField, diffField, h]
  · simp [applyField, diffField, h, Ne.symm h]

example :
    FieldProperties.applyDiff { name := some "a" }
      (FieldProperties.merge { name := some "a" } { name := some "b" }) =
      { name := some "b" } := by decide

/-! ## Migration executor (`liminal/migrate/components.py:64-82`)

`execute_operations` first calls `validate()` on every operation in order
(an exception there propagates), then calls `execute()` on each operation
in order, returning `False` at the first exception and `True` otherwise.
Operations are modelled by whether their `validate()`/`execute()` calls
raise, and the run is recorded as a trace of call events. -/

structure OpBehavior where
  validateRaises : Bool
  executeRaises : Bool
deriving DecidableEq, Repr

inductive ExecEvent where
  | validate (i : Nat)
  | execute (i : Nat)
deriving DecidableEq, Repr

inductive ExecOutcome where
  | success
  | failed (i : Nat)
  | validationError (i : Nat)
deriving DecidableEq, Repr

/-- The validation pass (`for o in operations: o.validate(...)`): returns
the index of the first operation whose `validate()` raises (if any) and
the trace of `validate()` calls actually made. -/
def validatePass : List OpBehavior → Nat → Option Nat × List ExecEvent
  | [], _ => (none, [])
  | o :: rest, i =>
    if o.validateRaises then (some i, [.validate i])
    else
      let (r, tr) := validatePass rest (i + 1)
      (r, .validate i :: tr)

/-- The execution pass: `execute()` each operation in order; at the first
exception stop (the raising call is in the trace) and report its index. -/
def executePass : List OpBehavior → Nat → Option Nat × List ExecEvent
  | [], _ => (none, [])
  | o :: rest, i =>
    if o.executeRaises then (some i, [.execute i])
    else
      let (r, tr) := executePass rest (i + 1)
      (r, .execute i :: tr)

/-- `execute_operations` (components.py:64-82): validation pass first (an
exception there propagates out of the function), then the execution pass,
returning `False` (`failed`) at the first `execute()` exception and `True`
(`success`) otherwise. -/
def executeOperations (ops : List OpBehavior) : ExecOutcome × List ExecEvent :=
  match validatePass ops 0 with
  | (some i, tr) => (.validationError i, tr)
  | (none, trv) =>
    match executePass ops 0 with
    | (some j, tre) => (.failed j, trv ++ tre)
    | (none, tre) => (.success, trv ++ tre)

theorem validatePass_none (ops : List OpBehavior) (i : Nat)
    (hv : ∀ o ∈ ops, o.validateRaises = false) :
    validatePass ops i =
      (none, (List.range ops.length).map (fun j => .validate (i + j))) := by
  induction ops generalizing i with
  | nil => simp [validatePass]
  | cons o rest ih =>
    have ho : o.validateRaises = false := hv o (by simp)
    have hrest : ∀ o ∈ rest, o.validateRaises = false := fun o ho =>
      hv o (by simp [ho])
    simp only [validatePass, ho, Bool.false_eq_true, if_false,
      ih (i + 1) hrest]
    simp [List.range_succ_eq_map, Function.comp, Nat.add_assoc,
      Nat.add_comm 1]

theorem map_execute_range_succ (i n : Nat) :
    (List.range (n + 1)).map (fun k => ExecEvent.execute (i + k)) =
      ExecEvent.execute i ::
        (List.range n).map (fun k => ExecEvent.execute (i + 1 + k)) := by
  rw [List.range_succ_eq_map, List.map_cons, List.map_map]
  simp only [Nat.add_zero]
  congr 1
  apply List.map_congr_left
  intro a _
  simp only [Function.comp]
  congr 1
  omega

theorem executePass_split (pre post : List OpBehavior) (b : OpBehavior)
    (hpre : ∀ o ∈ pre, o.executeRaises = false) (hb : b.executeRaises = true) :
    ∀ i, executePass (pre ++ b :: post) i =
      (some (i + pre.length),
       (List.range (pre.length + 1)).map (fun k => ExecEvent.execute (i + k))) := by
  induction pre with
  | nil =>
    intro i
    simp [executePass, hb, List.range_succ]
  | cons o pre' ih =>
    intro i
    have ho : o.executeRaises = false := hpre o (by simp)
    have h' : ∀ x ∈ pre', x.executeRaises = false := fun x hx =>
      hpre x (by simp [hx])
    simp only [List.cons_append, executePass, ho, Bool.false_eq_true, if_false,
      List.length_cons, List.append_eq]
    rw [ih h' (i + 1)]
    simp [List.range_succ_eq_map, Function.comp, Nat.add_assoc, Nat.add_comm 1]

theorem executePass_none (ops : List OpBehavior) (i : Nat)
    (h : ∀ o ∈ ops, o.executeRaises = false) :
    executePass ops i =
      (none, (List.range ops.length).map (fun j => .execute (i + j))) := by
  induction ops generalizing i with
  | nil => simp [executePass]
  | cons o rest ih =>
    have ho : o.executeRaises = false := h o (by simp)
    have hrest : ∀ x ∈ rest, x.executeRaises = false := fun x hx =>
      h x (by simp [hx])
    simp only [executePass, ho, Bool.false_eq_true, if_false,
      ih (i + 1) hrest, List.length_cons]
    simp [List.range_succ_eq_map, Function.comp, Nat.add_assoc, Nat.add_comm 1]

/-! ## Claim theorems: operation ordering, property diff, executor -/

/-- Modelled from the spec (§4.1, Property Diff rule): the diff of two
property bags is `{k: new[k] for k in new if new[k] != old[k]}`, one
optional entry per field of the bag. -/
def specPropertyDiff (old new : FieldProperties) : FieldDiff where
  name := if new.name ≠ old.name then some new.name else none
  warehouse_name :=
    if new.warehouse_name ≠ old.warehouse_name then some new.warehouse_name
    else none
  type := if new.type ≠ old.type then some new.type else none
  required := if new.required ≠ old.required then some new.required else none
  is_multi := if new.is_multi ≠ old.is_multi then some new.is_multi else none
  parent_link :=
    if new.parent_link ≠ old.parent_link then some new.parent_link else none
  dropdown_link :=
    if new.dropdown_link ≠ old.dropdown_link then some new.dropdown_link
    else none
  entity_link :=
    if new.entity_link ≠ old.entity_link then some new.entity_link else none
  tooltip := if new.tooltip ≠ old.tooltip then some new.tooltip else none
  decimal_places :=
    if new.decimal_places ≠ old.decimal_places then some new.decimal_places
    else none
  unit_name :=
    if new.unit_name ≠ old.unit_name then some new.unit_name else none

/-- C6: for any two property bags `old`, `new` of the same shape, the
forward diff `old.merge(new)` is exactly
`{k: new[k] for k in new if new[k] != old[k]}` (fields equal in both are
omitted), applying it as a partial update turns `old` into `new`, and
applying the reverse diff `new.merge(old)` afterwards restores the
original value of every individual field — forward+reverse is an exact
field-wise round trip. -/
theorem claim_C6_property_diff_roundtrip (old new : FieldProperties) :
    old.merge new = specPropertyDiff old new ∧
    old.applyDiff (old.merge new) = new ∧
    (old.applyDiff (old.merge new)).applyDiff (new.merge old) = old := by
  have h2 : old.applyDiff (old.merge new) = new := by
    cases old
    cases new
    simp [FieldProperties.merge, FieldProperties.applyDiff, applyField_diffField]
  refine ⟨rfl, h2, ?_⟩
  rw [h2]
  cases old
  cases new
  simp [FieldProperties.merge, FieldProperties.applyDiff, applyField_diffField]

/-- C6 witness at a concrete input, instantiating the round-trip theorem. -/
theorem claim_C6_property_diff_roundtrip_witness :
    FieldProperties.applyDiff
        (FieldProperties.applyDiff { name := some "a", required := some true }
          (FieldProperties.merge { name := some "a", required := some true }
            { name := some "b", required := some true }))
        (FieldProperties.merge { name := some "b", required := some true }
          { name := some "a", required := some true }) =
      { name := some "a", required := some true } :=
  (claim_C6_property_diff_roundtrip { name := some "a", required := some true }
    { name := some "b", required := some true }).2.2

/-- C1 (evaluation of the code at the failing input): the source sets
`UpdateEntitySchemaField.order = 14` (entity_schemas/operations.py:452),
not the `140` of the spec's §4.3 table, so the operation sorts *before*
"unarchive schema field" (order 130) — and even before "rename dropdown"
(order 20) — contradicting the claim (and the ordering docstring in
base_operation.py, which lists UpdateField 13th, between UnarchiveField
and ArchiveField). -/
theorem claim_C1_update_field_order_is_14 :
    Operation.order (.updateEntitySchemaField "my_schema" "my_field") = 14 ∧
    specTableOrder (.updateEntitySchemaField "my_schema" "my_field") = 140 ∧
    Operation.order (.updateEntitySchemaField "my_schema" "my_field") <
      Operation.order (.unarchiveEntitySchemaField "my_schema" "my_field" none) ∧
    Operation.order (.updateEntitySchemaField "my_schema" "my_field") <
      Operation.order (.updateDropdownName "a" "b") := by
  decide

/-- A two-element failing input for the scheduler claim: a "rename
dropdown" pair (order 20 in code and table) and an "update schema field"
pair (order 140 in the table, but 14 in the code). -/
def c5FailingInput : List CompareOperation :=
  [⟨.updateDropdownName "SD" "SD2", .updateDropdownName "SD2" "SD"⟩,
   ⟨.updateEntitySchemaField "s" "f", .updateEntitySchemaField "s" "f"⟩]

/-- C5 (evaluation of the code at the failing input): `sorted` (stable
sort by `CompareOperation.__lt__`, i.e. by the code's `order` constants)
puts the update-schema-field pair first, so the output *is* non-decreasing
in the code's `order` constants but its §4.3-table rank sequence is
`[140, 20]`, which is **not** non-decreasing — the claim fails on the code
because `UpdateEntitySchemaField.order` is `14` instead of the table's
`140`. -/
theorem claim_C5_schedule_not_table_ordered :
    pySorted c5FailingInput =
      [⟨.updateEntitySchemaField "s" "f", .updateEntitySchemaField "s" "f"⟩,
       ⟨.updateDropdownName "SD" "SD2", .updateDropdownName "SD2" "SD"⟩] ∧
    ((pySorted c5FailingInput).map (fun c => c.op.order)).Pairwise (· ≤ ·) ∧
    ¬ ((pySorted c5FailingInput).map
        (fun c => specTableOrder c.op)).Pairwise (· ≤ ·) := by
  decide

/-- C7: the executor is two-phase. For any ordered operation list
`pre ++ b :: post` on which every `validate()` passes, where every
operation of `pre` executes cleanly and `b`'s `execute()` raises:
the run returns failure reporting `b`'s position, the trace consists of a
`validate` call on *every* operation (in order) followed by `execute`
calls on exactly the operations up to and including `b` — so every
operation of `pre` was executed before the failure (no rollback) and no
operation of `post` is ever executed. -/
theorem claim_C7_executor_two_phase (pre post : List OpBehavior)
    (b : OpBehavior)
    (hv : ∀ o ∈ pre ++ b :: post, o.validateRaises = false)
    (hpre : ∀ o ∈ pre, o.executeRaises = false)
    (hb : b.executeRaises = true) :
    executeOperations (pre ++ b :: post) =
      (.failed pre.length,
       (List.range (pre ++ b :: post).length).map ExecEvent.validate ++
       (List.range (pre.length + 1)).map ExecEvent.execute) := by
  unfold executeOperations
  rw [validatePass_none _ 0 hv, executePass_split pre post b hpre hb 0]
  simp

/-- C7 witness: ops `[A, B, C]` where only `B.execute()` raises — the run
fails at index 1, `A` was executed, `C`'s `execute()` never happens. -/
theorem claim_C7_executor_two_phase_witness :
    executeOperations
        [⟨false, false⟩, ⟨false, true⟩, ⟨false, false⟩] =
      (.failed 1,
       [.validate 0, .validate 1, .validate 2, .execute 0, .execute 1]) := by
  have h := claim_C7_executor_two_phase [⟨false, false⟩] [⟨false, false⟩]
    ⟨false, true⟩ (by decide) (by decide) (by decide)
  simpa using h

/-! ## Dropdown diff (`liminal/dropdowns/compare.py`)

The remote snapshot (the result of `get_benchling_dropdowns_dict(...,
include_archived=True)`) and the declared dropdowns (the result of
`BaseDropdown.get_all_subclasses(dropdown_names)`) are taken as inputs;
`archived` stands for `archive_record is not None`. Python `set`
iteration (for `options_to_archive` and the final residual set
difference) is realized in first-occurrence order. -/

structure BenchOption where
  name : String
  archived : Bool
deriving DecidableEq, Repr

structure BenchDropdown where
  archived : Bool
  options : List BenchOption
deriving DecidableEq, Repr

structure ModelDropdown where
  name : String
  benchlingName : String
  allowedValues : List String
deriving DecidableEq, Repr

inductive CmpError where
  | keyError
deriving DecidableEq, Repr

/-- Lines 26-30 of compare.py: when a truthy `dropdown_names` filter is
given, the fetched dict is re-keyed over the declared dropdowns' benchling
names, raising `KeyError` when one is missing from the fetched dict. -/
def effectiveBenchlingDropdowns (dropdownNames : Option (List String))
    (modelDropdowns : List ModelDropdown)
    (benchlingDropdowns : List (String × BenchDropdown)) :
    Except CmpError (List (String × BenchDropdown)) :=
  match dropdownNames with
  | none => .ok benchlingDropdowns
  | some names =>
    if names.isEmpty then .ok benchlingDropdowns
    else
      modelDropdowns.foldlM
        (fun acc d =>
          match dictGet benchlingDropdowns d.benchlingName with
          | some v => .ok (dictSet acc d.benchlingName v)
          | none => .error .keyError)
        []

/-- One iteration of the `for model_dropdown in model_dropdowns` loop of
`compare_dropdowns` (compare.py:42-150), over the state
`(dropdown_operations, processed_benchling_names, dropdowns_to_unarchive)`. -/
def compareDropdownsStep (benchlingDropdowns : List (String × BenchDropdown))
    (archivedNames activeNames : List String)
    (st : List (String × List CompareOperation) × List String × List String)
    (md : ModelDropdown) :
    List (String × List CompareOperation) × List String × List String :=
  let ops0 : List CompareOperation :=
    if md.benchlingName ∈ archivedNames then
      [⟨.unarchiveDropdown md.benchlingName, .archiveDropdown md.benchlingName⟩]
    else []
  let toUnarchive :=
    if md.benchlingName ∈ archivedNames then st.2.2 ++ [md.benchlingName]
    else st.2.2
  let ops : List CompareOperation :=
    if md.benchlingName ∈ activeNames ∨ md.benchlingName ∈ toUnarchive then
      -- the lookup cannot fail here: the name is one of the dict's keys
      let dd := (dictGet benchlingDropdowns md.benchlingName).getD ⟨false, []⟩
      let benchlingOptions :=
        if md.benchlingName ∈ toUnarchive then dd.options.map (·.name)
        else (dd.options.filter (fun o => !o.archived)).map (·.name)
      if benchlingOptions ≠ md.allowedValues ∨
          md.benchlingName ∈ toUnarchive then
        let optionsToCreate :=
          if md.benchlingName ∈ toUnarchive then md.allowedValues
          else md.allowedValues.filter (fun o => o ∉ benchlingOptions)
        let optionsToArchive :=
          benchlingOptions.dedup.filter (fun o => o ∉ md.allowedValues)
        let recreatedBenchlingOptions :=
          benchlingOptions.filter (fun o => o ∈ md.allowedValues)
        let recreatedModelOptions :=
          md.allowedValues.filter (fun o => o ∈ recreatedBenchlingOptions)
        let archivePairs := optionsToArchive.map (fun o =>
          (⟨.archiveDropdownOption md.benchlingName o
              (some (benchlingOptions.findIdx (fun x => x = o))),
            .createDropdownOption md.benchlingName o
              (benchlingOptions.findIdx (fun x => x = o))⟩ : CompareOperation))
        let createPairs := optionsToCreate.map (fun o =>
          (⟨.createDropdownOption md.benchlingName o
              (md.allowedValues.findIdx (fun x => x = o)),
            .archiveDropdownOption md.benchlingName o
              (some (md.allowedValues.findIdx (fun x => x = o)))⟩ :
            CompareOperation))
        let reorderPairs : List CompareOperation :=
          if recreatedBenchlingOptions ≠ recreatedModelOptions then
            [⟨.reorderDropdownOptions md.benchlingName md.allowedValues,
              .reorderDropdownOptions md.benchlingName
                recreatedBenchlingOptions⟩]
          else []
        ops0 ++ archivePairs ++ createPairs ++ reorderPairs
      else ops0
    else
      ops0 ++ [⟨.createDropdown md.benchlingName md.allowedValues,
                .archiveDropdown md.benchlingName⟩]
  (dictSet st.1 md.name ops, st.2.1 ++ [md.benchlingName], toUnarchive)

/-- `compare_dropdowns` (compare.py:17-162) after the fetch/re-key steps:
classify remote dropdowns, run the per-model loop, then bind the key
`"Archive"` to the residual archive pairs for active remote dropdowns
never processed. -/
def compareDropdownsCore (modelDropdowns : List ModelDropdown)
    (benchlingDropdowns : List (String × BenchDropdown)) :
    List (String × List CompareOperation) :=
  let archivedNames := (benchlingDropdowns.filter (fun p => p.2.archived)).map (·.1)
  let activeNames := (benchlingDropdowns.filter (fun p => !p.2.archived)).map (·.1)
  let st := modelDropdowns.foldl
    (compareDropdownsStep benchlingDropdowns archivedNames activeNames)
    ([], [], [])
  let archiveOps := (activeNames.filter (fun n => n ∉ st.2.1)).map
    (fun n => (⟨.archiveDropdown n, .unarchiveDropdown n⟩ : CompareOperation))
  dictSet st.1 "Archive" archiveOps

/-- `compare_dropdowns` including the `dropdown_names` re-key step. -/
def compareDropdowns (dropdownNames : Option (List String))
    (modelDropdowns : List ModelDropdown)
    (benchlingDropdowns0 : List (String × BenchDropdown)) :
    Except CmpError (List (String × List CompareOperation)) :=
  match effectiveBenchlingDropdowns dropdownNames modelDropdowns
      benchlingDropdowns0 with
  | .error e => .error e
  | .ok bd => .ok (compareDropdownsCore modelDropdowns bd)

/-- The residual `"Archive"` group of `compare_dropdowns`
(compare.py:151-161): one Archive/Unarchive pair per active remote
dropdown whose benchling name no declared dropdown carries. -/
def dropdownArchiveResidual (modelDropdowns : List ModelDropdown)
    (benchlingDropdowns : List (String × BenchDropdown)) :
    List CompareOperation :=
  ((((benchlingDropdowns.filter (fun p => !p.2.archived)).map (·.1)).filter
      (fun n => n ∉ modelDropdowns.map (·.benchlingName))).map
    (fun n => (⟨.archiveDropdown n, .unarchiveDropdown n⟩ : CompareOperation)))

theorem compareDropdownsStep_processed
    (bd : List (String × BenchDropdown)) (an acn : List String)
    (st : List (String × List CompareOperation) × List String × List String)
    (md : ModelDropdown) :
    (compareDropdownsStep bd an acn st md).2.1 = st.2.1 ++ [md.benchlingName] :=
  rfl

theorem compareDropdownsStep_toUnarchive
    (bd : List (String × BenchDropdown)) (an acn : List String)
    (st : List (String × List CompareOperation) × List String × List String)
    (md : ModelDropdown) :
    (compareDropdownsStep bd an acn st md).2.2 =
      if md.benchlingName ∈ an then st.2.2 ++ [md.benchlingName] else st.2.2 :=
  rfl

theorem compareDropdownsStep_dict_set
    (bd : List (String × BenchDropdown)) (an acn : List String)
    (st : List (String × List CompareOperation) × List String × List String)
    (md : ModelDropdown) :
    ∃ ops, (compareDropdownsStep bd an acn st md).1 = dictSet st.1 md.name ops :=
  ⟨_, rfl⟩

theorem compareDropdownsStep_no_counterpart
    (bd : List (String × BenchDropdown)) (an acn : List String)
    (st : List (String × List CompareOperation) × List String × List String)
    (md : ModelDropdown) (hact : md.benchlingName ∉ acn)
    (harc : md.benchlingName ∉ an) (hun : md.benchlingName ∉ st.2.2) :
    (compareDropdownsStep bd an acn st md).1 =
      dictSet st.1 md.name
        [⟨.createDropdown md.benchlingName md.allowedValues,
          .archiveDropdown md.benchlingName⟩] := by
  simp [compareDropdownsStep, hact, harc, hun]

theorem dropdowns_foldl_processed (bd : List (String × BenchDropdown))
    (an acn : List String) :
    ∀ (models : List ModelDropdown) st,
      (models.foldl (compareDropdownsStep bd an acn) st).2.1 =
        st.2.1 ++ models.map (·.benchlingName) := by
  intro models
  induction models with
  | nil => simp
  | cons m ms ih =>
    intro st
    rw [List.foldl_cons, ih, compareDropdownsStep_processed]
    simp

theorem dropdowns_foldl_toUnarchive_sub (bd : List (String × BenchDropdown))
    (an acn : List String) :
    ∀ (models : List ModelDropdown) st,
      (∀ n ∈ st.2.2, n ∈ an) →
      ∀ n ∈ (models.foldl (compareDropdownsStep bd an acn) st).2.2, n ∈ an := by
  intro models
  induction models with
  | nil => exact fun st h => h
  | cons m ms ih =>
    intro st hst
    rw [List.foldl_cons]
    apply ih
    rw [compareDropdownsStep_toUnarchive]
    by_cases hm : m.benchlingName ∈ an
    · simp only [hm, if_pos]
      intro n hn
      rcases List.mem_append.mp hn with h | h
      · exact hst n h
      · simp only [List.mem_singleton] at h
        exact h ▸ hm
    · simp only [hm, if_neg, not_false_iff]
      exact hst

theorem dropdowns_loop_no_counterpart (bd : List (String × BenchDropdown))
    (an acn : List String) (md : ModelDropdown)
    (hact : md.benchlingName ∉ acn) (harc : md.benchlingName ∉ an) :
    ∀ (models : List ModelDropdown)
      (st : List (String × List CompareOperation) × List String × List String),
      (∀ n ∈ st.2.2, n ∈ an) →
      (∀ other ∈ models, other.name = md.name → other = md) →
      (md ∈ models ∨ dictGet st.1 md.name =
        some [⟨.createDropdown md.benchlingName md.allowedValues,
               .archiveDropdown md.benchlingName⟩]) →
      dictGet (models.foldl (compareDropdownsStep bd an acn) st).1 md.name =
        some [⟨.createDropdown md.benchlingName md.allowedValues,
               .archiveDropdown md.benchlingName⟩] := by
  intro models
  induction models with
  | nil =>
    intro st _ _ hd
    rcases hd with h | h
    · exact absurd h (List.not_mem_nil md)
    · exact h
  | cons m ms ih =>
    intro st hst hothers hd
    rw [List.foldl_cons]
    have hst' : ∀ n ∈ (compareDropdownsStep bd an acn st m).2.2, n ∈ an := by
      rw [compareDropdownsStep_toUnarchive]
      by_cases hm : m.benchlingName ∈ an
      · simp only [hm, if_pos]
        intro n hn
        rcases List.mem_append.mp hn with h | h
        · exact hst n h
        · simp only [List.mem_singleton] at h
          exact h ▸ hm
      · simp only [hm, if_neg, not_false_iff]
        exact hst
    have hothers' : ∀ other ∈ ms, other.name = md.name → other = md :=
      fun o ho => hothers o (by simp [ho])
    by_cases hm : m = md
    · subst hm
      have hun : m.benchlingName ∉ st.2.2 := fun h => harc (hst _ h)
      apply ih _ hst' hothers'
      right
      rw [compareDropdownsStep_no_counterpart bd an acn st m hact harc hun]
      exact dictGet_dictSet_self _ _ _
    · have hname : m.name ≠ md.name := fun h =>
        hm (hothers m (by simp) h)
      rcases hd with h | h
      · rcases List.mem_cons.mp h with h' | h'
        · exact absurd h'.symm hm
        · exact ih _ hst' hothers' (Or.inl h')
      · apply ih _ hst' hothers'
        right
        obtain ⟨ops, hops⟩ := compareDropdownsStep_dict_set bd an acn st m
        rw [hops, dictGet_dictSet_ne _ _ _ _ hname]
        exact h

theorem mem_keys_of_mem_filter_keys {α : Type} (l : List (String × α))
    (p : String × α → Bool) (n : String) (h : n ∈ (l.filter p).map (·.1)) :
    n ∈ l.map (·.1) :=
  ((List.filter_sublist l (p := p)).map (·.1)).subset h

/-- C8: a declared dropdown with no remote counterpart at all (neither
active nor archived) gets exactly one pair in the diff map: forward =
`CreateDropdown` with the declared name and full ordered option list,
reverse = `ArchiveDropdown` with that name. (The map key is the declared
class name; the hypotheses say that no other declared dropdown reuses
that class name and that it is not the reserved residual key
`"Archive"`.) -/
theorem claim_C8_create_pair_for_missing_dropdown
    (models : List ModelDropdown) (bd : List (String × BenchDropdown))
    (md : ModelDropdown) (hmem : md ∈ models)
    (huniq : ∀ other ∈ models, other.name = md.name → other = md)
    (hkey : md.name ≠ "Archive")
    (habs : md.benchlingName ∉ bd.map (·.1)) :
    dictGet (compareDropdownsCore models bd) md.name =
      some [⟨.createDropdown md.benchlingName md.allowedValues,
             .archiveDropdown md.benchlingName⟩] := by
  unfold compareDropdownsCore
  have harc : md.benchlingName ∉
      (bd.filter (fun p => p.2.archived)).map (·.1) := fun h =>
    habs (mem_keys_of_mem_filter_keys bd _ _ h)
  have hact : md.benchlingName ∉
      (bd.filter (fun p => !p.2.archived)).map (·.1) := fun h =>
    habs (mem_keys_of_mem_filter_keys bd _ _ h)
  rw [dictGet_dictSet_ne _ _ _ _ (Ne.symm hkey)]
  exact dropdowns_loop_no_counterpart bd _ _ md hact harc models ([], [], [])
    (by simp) huniq (Or.inl hmem)

/-- C8 witness: the spec's concrete scenario — declared dropdown
`Status = ["Open", "Closed"]`, remote has no such dropdown. -/
theorem claim_C8_create_pair_for_missing_dropdown_witness :
    dictGet
        (compareDropdownsCore [⟨"Status", "Status", ["Open", "Closed"]⟩]
          [("Other", ⟨false, []⟩)]) "Status" =
      some [⟨.createDropdown "Status" ["Open", "Closed"],
             .archiveDropdown "Status"⟩] :=
  claim_C8_create_pair_for_missing_dropdown
    [⟨"Status", "Status", ["Open", "Closed"]⟩] [("Other", ⟨false, []⟩)]
    ⟨"Status", "Status", ["Open", "Closed"]⟩ (by decide) (by decide)
    (by decide) (by decide)

/-! ## Entity-schema diff skeleton (`liminal/entity_schemas/compare.py`)

Only the dict-building skeleton of `compare_entity_schemas` is embedded:
the per-model operation-list computation (compare.py:71-405, which needs
the whole pydantic property model) is abstracted into the `ops` carried
by each declared model, since no claim inspects those lists. The embedded
part follows compare.py:45-68 and 406-424 exactly: the dict is keyed by
each model's `__schema_properties__.warehouse_name`, processed names are
removed from the running benchling list, the residual `"Archive"` entry is
assigned last, and every value is sorted on return. -/

structure SchemaModelOps where
  warehouseName : String
  ops : List CompareOperation
deriving DecidableEq, Repr

/-- The residual `"Archive"` group of `compare_entity_schemas`
(compare.py:413-423): one Archive/Unarchive pair per remaining,
non-archived benchling schema warehouse name. -/
def schemaArchiveResidual (models : List SchemaModelOps)
    (benchlingSchemas : List (String × Bool)) : List CompareOperation :=
  ((models.foldl (fun acc m => acc.filter (fun n => n ≠ m.warehouseName))
      (benchlingSchemas.map (·.1))).filter
    (fun n => n ∉ (benchlingSchemas.filter (·.2)).map (·.1))).map
    (fun n => (⟨.archiveEntitySchema n, .unarchiveEntitySchema n⟩ :
      CompareOperation))

/-- Skeleton of `compare_entity_schemas` (compare.py:29-424); each
benchling schema is `(warehouse_name, archived)`. -/
def compareEntitySchemasSkeleton (models : List SchemaModelOps)
    (benchlingSchemas : List (String × Bool)) :
    List (String × List CompareOperation) :=
  let archivedWhNames := (benchlingSchemas.filter (·.2)).map (·.1)
  let st := models.foldl
    (fun (st : List (String × List CompareOperation) × List String) m =>
      (dictSet st.1 m.warehouseName m.ops,
       st.2.filter (fun n => n ≠ m.warehouseName)))
    ([], benchlingSchemas.map (·.1))
  let archiveOps := (st.2.filter (fun n => n ∉ archivedWhNames)).map
    (fun n => (⟨.archiveEntitySchema n, .unarchiveEntitySchema n⟩ :
      CompareOperation))
  (dictSet st.1 "Archive" archiveOps).map (fun p => (p.1, pySorted p.2))

theorem schemas_foldl_running :
    ∀ (models : List SchemaModelOps)
      (st : List (String × List CompareOperation) × List String),
      (models.foldl
        (fun (st : List (String × List CompareOperation) × List String) m =>
          (dictSet st.1 m.warehouseName m.ops,
           st.2.filter (fun n => n ≠ m.warehouseName))) st).2 =
        models.foldl (fun acc m => acc.filter (fun n => n ≠ m.warehouseName))
          st.2 := by
  intro models
  induction models with
  | nil => intro st; rfl
  | cons m ms ih => intro st; rw [List.foldl_cons, ih, List.foldl_cons]

/-- C10: on every input, the map returned by the dropdown diff (whenever
it returns at all) and by the entity-schema diff binds the key
`"Archive"` to the residual archive-operation list (possibly empty); the
entry is assigned after all per-resource entries, so a declared resource
whose own map key is `"Archive"` has its per-resource list replaced by
the residual list. -/
theorem claim_C10_archive_key_bound_to_residual :
    (∀ (dropdownNames : Option (List String))
       (models : List ModelDropdown)
       (bd0 : List (String × BenchDropdown))
       (r : List (String × List CompareOperation)),
      compareDropdowns dropdownNames models bd0 = .ok r →
      ∃ bd, effectiveBenchlingDropdowns dropdownNames models bd0 = .ok bd ∧
        dictGet r "Archive" = some (dropdownArchiveResidual models bd)) ∧
    (∀ (models : List SchemaModelOps)
       (benchlingSchemas : List (String × Bool)),
      dictGet (compareEntitySchemasSkeleton models benchlingSchemas)
          "Archive" =
        some (pySorted (schemaArchiveResidual models benchlingSchemas))) := by
  constructor
  · intro dropdownNames models bd0 r hr
    unfold compareDropdowns at hr
    cases heff : effectiveBenchlingDropdowns dropdownNames models bd0 with
    | error e => rw [heff] at hr; cases hr
    | ok bd =>
      rw [heff] at hr
      cases hr
      refine ⟨bd, rfl, ?_⟩
      unfold compareDropdownsCore
      rw [dictGet_dictSet_self]
      unfold dropdownArchiveResidual
      rw [dropdowns_foldl_processed]
      simp
  · intro models benchlingSchemas
    unfold compareEntitySchemasSkeleton
    rw [dictGet_map_value, dictGet_dictSet_self]
    unfold schemaArchiveResidual
    rw [schemas_foldl_running]
    simp

/-- C10 witness: a run of the dropdown diff with no declared dropdowns and
one active remote dropdown, instantiating the dropdown half of the claim
theorem (`r` is the returned map itself, the run hypothesis holds by
computation). -/
theorem claim_C10_archive_key_bound_to_residual_witness :
    ∃ bd, effectiveBenchlingDropdowns none [] [("Old", ⟨false, []⟩)] = .ok bd ∧
      dictGet (compareDropdownsCore [] [("Old", ⟨false, []⟩)]) "Archive" =
        some (dropdownArchiveResidual [] bd) :=
  claim_C10_archive_key_bound_to_residual.1 none [] [("Old", ⟨false, []⟩)]
    (compareDropdownsCore [] [("Old", ⟨false, []⟩)]) rfl

/-! ## Revision history (`liminal/migrate/revisions_timeline.py`)

A `Revision` carries the fields of `liminal/migrate/revision.py`
(`up_revision_id` is not persisted; it defaults to `None` at parse time
and is set while validating). Exceptions are modelled as a tagged error
type, one constructor per distinct raise site. The Python `while` loops
walk an unbounded object graph; they are embedded with an explicit fuel
of one more than the map size, which the well-formedness available at
every call site makes sufficient (`fuelExhausted` is proved unreachable
in every theorem below). -/

structure Revision where
  id : String
  description : String
  upRevisionId : Option String := none
  downRevisionId : Option String := none
  upgradeOperations : List Operation := []
  downgradeOperations : List Operation := []
deriving DecidableEq, Repr

inductive Direction where
  | up
  | down
deriving DecidableEq, Repr

inductive TimelineError where
  | duplicateIds
  | noBaseRevision
  | multipleBaseRevisions
  | noUpRevision (id : String)
  | multipleUpRevisions (id : String)
  | loopDetected (id : String)
  | noFirstRevision
  | multipleFirstRevisions
  | noLatestRevision
  | multipleLatestRevisions
  | noRevisionIdProvided
  | revisionNotFound (id : String)
  | notValidRevisionFrom (id1 id2 : String) (direction : Direction)
  | distanceZero (id1 id2 : String)
  | fuelExhausted
deriving DecidableEq, Repr

/-- The `while len(revisions_map) < len(all_raw_revisions)` walk of
`RevisionsTimeline.validate_revisions` (revisions_timeline.py:301-326):
find the unique successor of the current revision, set the current
revision's `up_revision_id` in the map, move on, and fail on a missing
successor, a double successor, or a revisit. -/
def validateLinks (all : List Revision) :
    Nat → Revision → List (String × Revision) →
    Except TimelineError (List (String × Revision))
  | 0, _, revisionsMap =>
    if revisionsMap.length < all.length then .error .fuelExhausted
    else .ok revisionsMap
  | fuel + 1, current, revisionsMap =>
    if revisionsMap.length < all.length then
      match all.filter (fun r => r.downRevisionId = some current.id) with
      | [] => .error (.noUpRevision current.id)
      | [upRevision] =>
        -- the Python local rebinding of `revisions_map` is inlined
        match dictGet (dictSet revisionsMap current.id
            { current with upRevisionId := some upRevision.id })
            upRevision.id with
        | none =>
          validateLinks all fuel upRevision
            (dictSet (dictSet revisionsMap current.id
              { current with upRevisionId := some upRevision.id })
              upRevision.id upRevision)
        | some _ => .error (.loopDetected upRevision.id)
      | _ => .error (.multipleUpRevisions current.id)
    else .ok revisionsMap

/-- `RevisionsTimeline.validate_revisions` (revisions_timeline.py:261-327):
empty input loads as the empty map; duplicate ids, a missing base or
multiple bases fail; otherwise walk the chain up from the base. -/
def validateRevisions (allRawRevisions : List Revision) :
    Except TimelineError (List (String × Revision)) :=
  let allRevisionIds := allRawRevisions.map (·.id)
  if allRawRevisions.length = 0 then .ok []
  else if (allRevisionIds.filter (fun i => 1 < allRevisionIds.count i)) ≠ []
  then .error .duplicateIds
  else
    match allRawRevisions.filter (fun r => r.downRevisionId = none) with
    | [] => .error .noBaseRevision
    | [base] =>
      validateLinks allRawRevisions allRawRevisions.length base
        (dictSet [] base.id base)
    | _ => .error .multipleBaseRevisions

/-- `RevisionsTimeline.get_first_revision` (revisions_timeline.py:36-51). -/
def getFirstRevision (m : List (String × Revision)) :
    Except TimelineError Revision :=
  match (m.map (·.2)).filter (fun r => r.downRevisionId = none) with
  | [] => .error .noFirstRevision
  | [r] => .ok r
  | _ => .error .multipleFirstRevisions

/-- `RevisionsTimeline.get_latest_revision` (revisions_timeline.py:53-66). -/
def getLatestRevision (m : List (String × Revision)) :
    Except TimelineError Revision :=
  match (m.map (·.2)).filter (fun r => r.upRevisionId = none) with
  | [] => .error .noLatestRevision
  | [r] => .ok r
  | _ => .error .multipleLatestRevisions

/-- `RevisionsTimeline.get_revision` (revisions_timeline.py:148-166);
`if not revision_id` is Python falsiness, so the empty string also fails. -/
def getRevision (m : List (String × Revision)) (revisionId : Option String) :
    Except TimelineError Revision :=
  match revisionId with
  | none => .error .noRevisionIdProvided
  | some i =>
    if i = "" then .error .noRevisionIdProvided
    else
      match dictGet m i with
      | some r => .ok r
      | none => .error (.revisionNotFound i)

/-- The `while revision.id != revision_2.id` loop of
`RevisionsTimeline.get_distance` (revisions_timeline.py:113-125): step in
the given direction, counting, converting a lookup failure into the
"not a valid … revision from …" error. -/
def getDistanceAux (m : List (String × Revision)) (targetId : String)
    (dir : Direction) (revisionId1 revisionId2 : String) :
    Nat → Revision → Nat → Except TimelineError Nat
  | 0, revision, count =>
    if revision.id = targetId then .ok count else .error .fuelExhausted
  | fuel + 1, revision, count =>
    if revision.id = targetId then .ok count
    else
      match getRevision m
          (if dir = .up then revision.upRevisionId
           else revision.downRevisionId) with
      | .ok next =>
        getDistanceAux m targetId dir revisionId1 revisionId2 fuel next
          (count + 1)
      | .error _ =>
        .error (.notValidRevisionFrom revisionId1 revisionId2 dir)

/-- `RevisionsTimeline.get_distance` (revisions_timeline.py:92-125). -/
def getDistance (m : List (String × Revision))
    (revisionId1 revisionId2 : String) (dir : Direction) :
    Except TimelineError Nat := do
  let revision ← getRevision m (some revisionId1)
  let revision2 ← getRevision m (some revisionId2)
  getDistanceAux m revision2.id dir revisionId1 revisionId2 (m.length + 1)
    revision 0

/-- The `while next_revision.id != end_revision_id` loop of
`RevisionsTimeline.get_upgrade_operations` (revisions_timeline.py:198-201),
including the final `operations_map[end_revision_id] = ...` assignment. -/
def collectUpgradeAux (m : List (String × Revision)) (endRevisionId : String) :
    Nat → Revision → List (String × List Operation) →
    Except TimelineError (List (String × List Operation))
  | 0, nextRevision, operationsMap =>
    if nextRevision.id = endRevisionId then
      .ok (dictSet operationsMap endRevisionId nextRevision.upgradeOperations)
    else .error .fuelExhausted
  | fuel + 1, nextRevision, operationsMap =>
    if nextRevision.id = endRevisionId then
      .ok (dictSet operationsMap endRevisionId nextRevision.upgradeOperations)
    else
      match getRevision m nextRevision.upRevisionId with
      | .ok next =>
        collectUpgradeAux m endRevisionId fuel next
          (dictSet operationsMap nextRevision.id
            nextRevision.upgradeOperations)
      | .error e => .error e

/-- `RevisionsTimeline.get_upgrade_operations`
(revisions_timeline.py:183-202). -/
def getUpgradeOperations (m : List (String × Revision))
    (startRevisionId endRevisionId : String) :
    Except TimelineError (List (String × List Operation)) := do
  let distance ← getDistance m startRevisionId endRevisionId .up
  if distance = 0 then
    .error (.distanceZero startRevisionId endRevisionId)
  else do
    let revision ← getRevision m (some startRevisionId)
    let nextRevision ← getRevision m revision.upRevisionId
    collectUpgradeAux m endRevisionId (m.length + 1) nextRevision []

/-- The `while revision.id != end_revision_id` loop of
`RevisionsTimeline.get_downgrade_operations`
(revisions_timeline.py:217-220). -/
def collectDowngradeAux (m : List (String × Revision))
    (endRevisionId : String) :
    Nat → Revision → List (String × List Operation) →
    Except TimelineError (List (String × List Operation))
  | 0, revision, operationsMap =>
    if revision.id = endRevisionId then .ok operationsMap
    else .error .fuelExhausted
  | fuel + 1, revision, operationsMap =>
    if revision.id = endRevisionId then .ok operationsMap
    else
      match getRevision m revision.downRevisionId with
      | .ok next =>
        collectDowngradeAux m endRevisionId fuel next
          (dictSet operationsMap revision.id revision.downgradeOperations)
      | .error e => .error e

/-- `RevisionsTimeline.get_downgrade_operations`
(revisions_timeline.py:204-220). -/
def getDowngradeOperations (m : List (String × Revision))
    (startRevisionId endRevisionId : String) :
    Except TimelineError (List (String × List Operation)) := do
  let distance ← getDistance m startRevisionId endRevisionId .down
  if distance = 0 then
    .error (.distanceZero startRevisionId endRevisionId)
  else do
    let revision ← getRevision m (some startRevisionId)
    collectDowngradeAux m endRevisionId (m.length + 1) revision []

/-- `RevisionsTimeline.write_new_revision` (revisions_timeline.py:222-243):
create the record linked down to the current tip (`Revision.new_id()` is
passed in as `newId`); with an empty operation list nothing is persisted
and `None` is returned; otherwise the record is stored and the old tip's
`up_revision_id` is pointed at it. The result is the returned record (if
any) together with the updated map. -/
def writeNewRevision (m : List (String × Revision)) (newId : String)
    (message : String) (operations : List CompareOperation) :
    Except TimelineError (Option Revision × List (String × Revision)) := do
  let latest ← getLatestRevision m
  let newRevision : Revision :=
    { id := newId, description := message, upRevisionId := none,
      downRevisionId := some latest.id,
      upgradeOperations := operations.map (·.op),
      downgradeOperations := (operations.map (·.reverseOp)).reverse }
  if operations.length = 0 then .ok (none, m)
  else do
    let m1 := dictSet m newRevision.id newRevision
    let prev ← getRevision m1 newRevision.downRevisionId
    .ok (some newRevision,
      dictSet m1 prev.id { prev with upRevisionId := some newRevision.id })

/-- C4: writing a new revision creates a record whose `down_id` is the
current tip's id, whose upgrade operations are the forward halves of the
pairs in emission order and whose downgrade operations are the reverse
halves in reverse list order; with an empty pair list nothing is created
or persisted and `None` is returned. (`m` is the revisions map whose tip
is `tip`; the fresh id differs from the tip's.) -/
theorem exceptBind_ok {ε α β : Type} (a : α) (f : α → Except ε β) :
    ((Except.ok a : Except ε α) >>= f) = f a := rfl

theorem claim_C4_write_new_revision (m : List (String × Revision))
    (tip : Revision) (newId message : String)
    (operations : List CompareOperation)
    (hlat : getLatestRevision m = .ok tip)
    (hget : dictGet m tip.id = some tip)
    (hid : newId ≠ tip.id) (htip : tip.id ≠ "") :
    (operations = [] →
      writeNewRevision m newId message operations = .ok (none, m)) ∧
    (operations ≠ [] →
      writeNewRevision m newId message operations =
        .ok (some { id := newId, description := message,
                    upRevisionId := none,
                    downRevisionId := some tip.id,
                    upgradeOperations := operations.map (·.op),
                    downgradeOperations :=
                      (operations.map (·.reverseOp)).reverse },
          dictSet
            (dictSet m newId
              { id := newId, description := message, upRevisionId := none,
                downRevisionId := some tip.id,
                upgradeOperations := operations.map (·.op),
                downgradeOperations :=
                  (operations.map (·.reverseOp)).reverse })
            tip.id { tip with upRevisionId := some newId })) := by
  constructor
  · intro h
    subst h
    simp [writeNewRevision, hlat, exceptBind_ok]
  · intro h
    have hlen : ¬ operations.length = 0 := by
      simpa using h
    have hstep : dictGet (dictSet m newId
        { id := newId, description := message, upRevisionId := none,
          downRevisionId := some tip.id,
          upgradeOperations := operations.map (·.op),
          downgradeOperations := (operations.map (·.reverseOp)).reverse })
        tip.id = some tip := by
      rw [dictGet_dictSet_ne _ _ _ _ hid]
      exact hget
    simp [writeNewRevision, hlat, hlen, getRevision, htip, hstep,
      exceptBind_ok]

/-- C4 witness: a one-revision timeline getting one reversible pair
appended, and the same timeline with an empty pair list. -/
theorem claim_C4_write_new_revision_witness :
    writeNewRevision
        [("r0", { id := "r0", description := "init" })] "r1" "add"
        [⟨.createDropdown "D" ["a"], .archiveDropdown "D"⟩] =
      .ok (some { id := "r1", description := "add", upRevisionId := none,
                  downRevisionId := some "r0",
                  upgradeOperations := [.createDropdown "D" ["a"]],
                  downgradeOperations := [.archiveDropdown "D"] },
        [("r0", { id := "r0", description := "init",
                  upRevisionId := some "r1" }),
         ("r1", { id := "r1", description := "add", upRevisionId := none,
                  downRevisionId := some "r0",
                  upgradeOperations := [.createDropdown "D" ["a"]],
                  downgradeOperations := [.archiveDropdown "D"] })]) :=
  (claim_C4_write_new_revision
    [("r0", { id := "r0", description := "init" })]
    { id := "r0", description := "init" } "r1" "add"
    [⟨.createDropdown "D" ["a"], .archiveDropdown "D"⟩]
    rfl rfl (by decide) (by decide)).2 (by decide)

theorem validateLinks_ne_noBase (all : List Revision) : ∀ fuel cur map,
    validateLinks all fuel cur map ≠ .error .noBaseRevision := by
  intro fuel
  induction fuel with
  | zero =>
    intro cur map h
    by_cases hc : map.length < all.length <;> simp [validateLinks, hc] at h
  | succ f ih =>
    intro cur map h
    unfold validateLinks at h
    by_cases hc : map.length < all.length
    · rw [if_pos hc] at h
      cases hf : all.filter (fun r => r.downRevisionId = some cur.id) with
      | nil => rw [hf] at h; exact absurd h (by simp)
      | cons b rest =>
        cases rest with
        | nil =>
          rw [hf] at h
          dsimp only [] at h
          cases hg : dictGet
              (dictSet map cur.id { cur with upRevisionId := some b.id })
              b.id with
          | none =>
            rw [hg] at h
            exact ih b _ h
          | some r => rw [hg] at h; exact absurd h (by simp)
        | cons c rest2 => rw [hf] at h; exact absurd h (by simp)
    · rw [if_neg hc] at h
      exact absurd h (by simp)

/-- C9: validating the empty record set succeeds with an empty chain; the
"no base revision" failure happens only for non-empty record sets with no
`down_id == null` record; first/latest-revision lookups on the empty
chain fail (only) when called. -/
theorem claim_C9_empty_set_loads :
    validateRevisions [] = .ok [] ∧
    (∀ all : List Revision, validateRevisions all = .error .noBaseRevision →
      all ≠ [] ∧ all.filter (fun r => r.downRevisionId = none) = []) ∧
    getFirstRevision [] = .error .noFirstRevision ∧
    getLatestRevision [] = .error .noLatestRevision := by
  refine ⟨rfl, ?_, rfl, rfl⟩
  intro all h
  simp only [validateRevisions] at h
  by_cases h0 : all.length = 0
  · rw [if_pos h0] at h
    exact absurd h (by simp)
  · have hne : all ≠ [] := fun hnil => h0 (by simp [hnil])
    refine ⟨hne, ?_⟩
    rw [if_neg h0] at h
    by_cases h1 : (all.map (·.id)).filter
        (fun i => 1 < (all.map (·.id)).count i) ≠ []
    · rw [if_pos h1] at h
      exact absurd h (by simp)
    · rw [if_neg h1] at h
      cases hf : all.filter (fun r => r.downRevisionId = none) with
      | nil => rfl
      | cons b rest =>
        rw [hf] at h
        cases rest with
        | nil => exact absurd h (validateLinks_ne_noBase all _ _ _)
        | cons c rest2 => exact absurd h (by simp)

/-- C9 witness: a non-empty set with no base raises exactly the no-base
failure, instantiating the characterization. -/
theorem claim_C9_empty_set_loads_witness :
    ([({ id := "r1", description := "d",
         downRevisionId := some "r0" } : Revision)] ≠ []) ∧
    [({ id := "r1", description := "d",
        downRevisionId := some "r0" } : Revision)].filter
      (fun r => r.downRevisionId = none) = [] :=
  claim_C9_empty_set_loads.2.1
    [{ id := "r1", description := "d", downRevisionId := some "r0" }] rfl

/-! ## Well-formed chains and the plan-building claims -/

/-- Adjacent linking in a validated chain: `a` points up to `b` and `b`
points down to `a`. -/
def ChainStep (a b : Revision) : Prop :=
  a.upRevisionId = some b.id ∧ b.downRevisionId = some a.id

instance : DecidableRel ChainStep := fun a b =>
  decidable_of_iff
    (a.upRevisionId = some b.id ∧ b.downRevisionId = some a.id) Iff.rfl

/-- A valid chain: the revisions map is the association list of a
linearization `V` with distinct non-empty ids, adjacent up/down links and
a tip with no up link (as produced by loading and validating a healthy
versions directory). -/
structure WellFormedChain (V : List Revision)
    (m : List (String × Revision)) : Prop where
  map_eq : m = V.map (fun r => (r.id, r))
  linked : V.Chain' ChainStep
  nodup : (V.map (·.id)).Nodup
  ids_ne : ∀ r ∈ V, r.id ≠ ""
  tip_up : ∀ r ∈ V.getLast?, r.upRevisionId = none

theorem dictGet_assoc_of_mem : ∀ (V : List Revision),
    (V.map (·.id)).Nodup →
    ∀ r ∈ V, dictGet (V.map (fun x => (x.id, x))) r.id = some r := by
  intro V
  induction V with
  | nil => intro _ r hr; cases hr
  | cons x xs ih =>
    intro hnd r hr
    simp only [List.map_cons, dictGet]
    by_cases hx : x.id = r.id
    · rcases List.mem_cons.mp hr with rfl | hr'
      · simp
      · exfalso
        have hnx : x.id ∉ xs.map (·.id) := (List.nodup_cons.mp hnd).1
        exact hnx (hx ▸ List.mem_map_of_mem _ hr')
    · rw [if_neg hx]
      rcases List.mem_cons.mp hr with rfl | hr'
      · exact absurd rfl hx
      · exact ih (List.nodup_cons.mp hnd).2 r hr'

theorem wf_getRevision {V : List Revision} {m : List (String × Revision)}
    (hw : WellFormedChain V m) (r : Revision) (hr : r ∈ V) :
    getRevision m (some r.id) = .ok r := by
  have h1 : dictGet m r.id = some r := by
    rw [hw.map_eq]
    exact dictGet_assoc_of_mem V hw.nodup r hr
  unfold getRevision
  dsimp only
  rw [if_neg (hw.ids_ne r hr), h1]

theorem id_ne_of_append {V X Y : List Revision} {x y : Revision}
    (hnd : (V.map (·.id)).Nodup) (hV : V = X ++ Y) (hx : x ∈ X)
    (hy : y ∈ Y) : x.id ≠ y.id := by
  subst hV
  rw [List.map_append, List.nodup_append] at hnd
  intro he
  exact hnd.2.2 (List.mem_map_of_mem _ hx) (he ▸ List.mem_map_of_mem _ hy)

theorem decomp_id_ne {V A B C : List Revision} {x y : Revision}
    (hnd : (V.map (·.id)).Nodup) (hV : V = A ++ x :: (B ++ y :: C)) :
    x.id ≠ y.id := by
  apply id_ne_of_append (X := A ++ [x]) (Y := B ++ y :: C) hnd
  · rw [hV]
    simp
  · simp
  · simp

theorem chainStep_of_decomp {V A Y : List Revision} {a b : Revision}
    (hl : V.Chain' ChainStep) (hV : V = A ++ a :: b :: Y) :
    ChainStep a b := by
  subst hV
  rcases List.chain'_append.mp hl with ⟨_, h2, _⟩
  exact (List.chain'_cons.mp h2).1

theorem getDistanceAux_up {V : List Revision} {m : List (String × Revision)}
    (hw : WellFormedChain V m) (t : Revision) (id1 id2 : String) :
    ∀ (B A C : List Revision) (cur : Revision) (count fuel : Nat),
      V = A ++ cur :: (B ++ t :: C) →
      B.length + 1 ≤ fuel →
      getDistanceAux m t.id .up id1 id2 fuel cur count =
        .ok (count + (B.length + 1)) := by
  intro B
  induction B with
  | nil =>
    intro A C cur count fuel hV hfuel
    have hne : cur.id ≠ t.id := decomp_id_ne hw.nodup hV
    have hstep : ChainStep cur t :=
      chainStep_of_decomp hw.linked (by simpa using hV)
    have ht : t ∈ V := by
      rw [hV]
      simp
    obtain ⟨fu, rfl⟩ : ∃ fu, fuel = fu + 1 := ⟨fuel - 1, by omega⟩
    unfold getDistanceAux
    rw [if_neg hne]
    have hget : getRevision m cur.upRevisionId = .ok t := by
      rw [hstep.1]
      exact wf_getRevision hw t ht
    simp only [show (Direction.up = Direction.up) = True from by simp,
      if_true]
    rw [hget]
    cases fu with
    | zero =>
      unfold getDistanceAux
      rw [if_pos rfl]
      simp
    | succ fu' =>
      unfold getDistanceAux
      rw [if_pos rfl]
      simp
  | cons b B' ih =>
    intro A C cur count fuel hV hfuel
    have hne : cur.id ≠ t.id := decomp_id_ne hw.nodup hV
    have hstep : ChainStep cur b :=
      chainStep_of_decomp hw.linked (by simpa using hV)
    have hb : b ∈ V := by
      rw [hV]
      simp
    obtain ⟨fu, rfl⟩ : ∃ fu, fuel = fu + 1 := ⟨fuel - 1, by omega⟩
    unfold getDistanceAux
    rw [if_neg hne]
    have hget : getRevision m cur.upRevisionId = .ok b := by
      rw [hstep.1]
      exact wf_getRevision hw b hb
    simp only [show (Direction.up = Direction.up) = True from by simp,
      if_true]
    rw [hget]
    dsimp only
    have hV' : V = (A ++ [cur]) ++ b :: (B' ++ t :: C) := by
      rw [hV]
      simp
    rw [ih (A ++ [cur]) C b (count + 1) fu hV' (by simpa using hfuel)]
    congr 1
    simp only [List.length_cons]
    omega

theorem getDistanceAux_down {V : List Revision} {m : List (String × Revision)}
    (hw : WellFormedChain V m) (t : Revision) (id1 id2 : String) :
    ∀ (B A C : List Revision) (cur : Revision) (count fuel : Nat),
      V = A ++ t :: (B ++ cur :: C) →
      B.length + 1 ≤ fuel →
      getDistanceAux m t.id .down id1 id2 fuel cur count =
        .ok (count + (B.length + 1)) := by
  intro B
  induction B using List.reverseRecOn with
  | nil =>
    intro A C cur count fuel hV hfuel
    simp only [List.nil_append] at hV
    have hne : cur.id ≠ t.id :=
      (decomp_id_ne (B := []) (C := C) hw.nodup (by simpa using hV)).symm
    have hstep : ChainStep t cur := chainStep_of_decomp hw.linked hV
    have ht : t ∈ V := by
      rw [hV]
      simp
    obtain ⟨fu, rfl⟩ : ∃ fu, fuel = fu + 1 := ⟨fuel - 1, by omega⟩
    unfold getDistanceAux
    rw [if_neg hne]
    have hget : getRevision m cur.downRevisionId = .ok t := by
      rw [hstep.2]
      exact wf_getRevision hw t ht
    simp only [show (Direction.down = Direction.up) = False from by simp,
      if_false]
    rw [hget]
    dsimp only
    cases fu with
    | zero =>
      unfold getDistanceAux
      rw [if_pos rfl]
      simp
    | succ fu' =>
      unfold getDistanceAux
      rw [if_pos rfl]
      simp
  | append_singleton B' b ih =>
    intro A C cur count fuel hV hfuel
    have hV2 : V = A ++ t :: (B' ++ b :: cur :: C) := by
      rw [hV]
      simp
    have hne : cur.id ≠ t.id :=
      (decomp_id_ne (A := A) (B := B' ++ [b]) hw.nodup hV).symm
    have hstep : ChainStep b cur :=
      chainStep_of_decomp (A := A ++ t :: B') (Y := C) hw.linked
        (by rw [hV2]; simp)
    have hb : b ∈ V := by
      rw [hV2]
      simp
    obtain ⟨fu, rfl⟩ : ∃ fu, fuel = fu + 1 := ⟨fuel - 1, by omega⟩
    unfold getDistanceAux
    rw [if_neg hne]
    have hget : getRevision m cur.downRevisionId = .ok b := by
      rw [hstep.2]
      exact wf_getRevision hw b hb
    simp only [show (Direction.down = Direction.up) = False from by simp,
      if_false]
    rw [hget]
    dsimp only
    rw [ih A (cur :: C) b (count + 1) fu hV2 (by simpa using hfuel)]
    congr 1
    simp only [List.length_append, List.length_singleton]
    omega

theorem getDistance_up {V : List Revision} {m : List (String × Revision)}
    (hw : WellFormedChain V m) {A B C : List Revision} {f t : Revision}
    (hV : V = A ++ f :: (B ++ t :: C)) :
    getDistance m f.id t.id .up = .ok (B.length + 1) := by
  have hf : f ∈ V := by
    rw [hV]
    simp
  have ht : t ∈ V := by
    rw [hV]
    simp
  have hlen : B.length + 1 ≤ m.length + 1 := by
    have hm : m.length = V.length := by
      rw [hw.map_eq]
      simp
    rw [hm, hV]
    simp
    omega
  unfold getDistance
  rw [wf_getRevision hw f hf, exceptBind_ok, wf_getRevision hw t ht,
    exceptBind_ok]
  simpa using getDistanceAux_up hw t f.id t.id B A C f 0 (m.length + 1) hV hlen

theorem getDistance_down {V : List Revision} {m : List (String × Revision)}
    (hw : WellFormedChain V m) {A B C : List Revision} {f t : Revision}
    (hV : V = A ++ t :: (B ++ f :: C)) :
    getDistance m f.id t.id .down = .ok (B.length + 1) := by
  have hf : f ∈ V := by
    rw [hV]
    simp
  have ht : t ∈ V := by
    rw [hV]
    simp
  have hlen : B.length + 1 ≤ m.length + 1 := by
    have hm : m.length = V.length := by
      rw [hw.map_eq]
      simp
    rw [hm, hV]
    simp
    omega
  unfold getDistance
  rw [wf_getRevision hw f hf, exceptBind_ok, wf_getRevision hw t ht,
    exceptBind_ok]
  simpa using
    getDistanceAux_down hw t f.id t.id B A C f 0 (m.length + 1) hV hlen

theorem collectUpgradeAux_spec {V : List Revision}
    {m : List (String × Revision)} (hw : WellFormedChain V m) (t : Revision) :
    ∀ (D A C : List Revision) (nxt : Revision)
      (acc : List (String × List Operation)) (fuel : Nat),
      V = A ++ nxt :: (D ++ t :: C) →
      D.length + 1 ≤ fuel →
      (∀ r ∈ nxt :: (D ++ [t]), r.id ∉ acc.map (·.1)) →
      collectUpgradeAux m t.id fuel nxt acc =
        .ok (acc ++
          ((nxt :: D) ++ [t]).map (fun r => (r.id, r.upgradeOperations))) := by
  intro D
  induction D with
  | nil =>
    intro A C nxt acc fuel hV hfuel hfresh
    have hne : nxt.id ≠ t.id := decomp_id_ne hw.nodup hV
    have hstep : ChainStep nxt t :=
      chainStep_of_decomp hw.linked (by simpa using hV)
    have ht : t ∈ V := by
      rw [hV]
      simp
    obtain ⟨fu, rfl⟩ : ∃ fu, fuel = fu + 1 := ⟨fuel - 1, by omega⟩
    unfold collectUpgradeAux
    rw [if_neg hne]
    have hget : getRevision m nxt.upRevisionId = .ok t := by
      rw [hstep.1]
      exact wf_getRevision hw t ht
    rw [hget]
    dsimp only
    rw [dictSet_fresh _ _ _ (hfresh nxt (by simp))]
    have hf2 : t.id ∉
        (acc ++ [(nxt.id, nxt.upgradeOperations)]).map (·.1) := by
      simp only [List.map_append, List.mem_append, List.map_cons,
        List.map_nil, List.mem_singleton, not_or]
      exact ⟨hfresh t (by simp), Ne.symm hne⟩
    cases fu with
    | zero =>
      unfold collectUpgradeAux
      rw [if_pos rfl, dictSet_fresh _ _ _ hf2]
      simp
    | succ fu' =>
      unfold collectUpgradeAux
      rw [if_pos rfl, dictSet_fresh _ _ _ hf2]
      simp
  | cons b D' ih =>
    intro A C nxt acc fuel hV hfuel hfresh
    have hne : nxt.id ≠ t.id := decomp_id_ne hw.nodup hV
    have hstep : ChainStep nxt b :=
      chainStep_of_decomp hw.linked (by simpa using hV)
    have hb : b ∈ V := by
      rw [hV]
      simp
    obtain ⟨fu, rfl⟩ : ∃ fu, fuel = fu + 1 := ⟨fuel - 1, by omega⟩
    unfold collectUpgradeAux
    rw [if_neg hne]
    have hget : getRevision m nxt.upRevisionId = .ok b := by
      rw [hstep.1]
      exact wf_getRevision hw b hb
    rw [hget]
    dsimp only
    rw [dictSet_fresh _ _ _ (hfresh nxt (by simp))]
    have hV' : V = (A ++ [nxt]) ++ b :: (D' ++ t :: C) := by
      rw [hV]
      simp
    have hfresh' : ∀ r ∈ b :: (D' ++ [t]),
        r.id ∉ (acc ++ [(nxt.id, nxt.upgradeOperations)]).map (·.1) := by
      intro r hr
      simp only [List.map_append, List.mem_append, List.map_cons,
        List.map_nil, List.mem_singleton, not_or]
      constructor
      · exact hfresh r (by
          rcases List.mem_cons.mp hr with rfl | hr'
          · simp
          · simp only [List.mem_cons]
            right
            rcases List.mem_append.mp hr' with h | h
            · exact List.mem_append.mpr (Or.inl (by simp [h]))
            · exact List.mem_append.mpr (Or.inr h))
      · have : nxt.id ≠ r.id := by
          apply id_ne_of_append (X := A ++ [nxt]) (Y := (b :: D') ++ t :: C)
            hw.nodup (by rw [hV]; simp) (by simp)
          rcases List.mem_cons.mp hr with rfl | hr'
          · simp
          · rcases List.mem_append.mp hr' with h | h
            · simp [h]
            · simp only [List.mem_singleton] at h
              subst h
              simp
        exact this.symm
    rw [ih (A ++ [nxt]) C b _ fu hV' (by simpa using hfuel) hfresh']
    simp

theorem collectDowngradeAux_spec {V : List Revision}
    {m : List (String × Revision)} (hw : WellFormedChain V m) (t : Revision) :
    ∀ (B A C : List Revision) (cur : Revision)
      (acc : List (String × List Operation)) (fuel : Nat),
      V = A ++ t :: (B ++ cur :: C) →
      B.length + 1 ≤ fuel →
      (∀ r ∈ cur :: B.reverse, r.id ∉ acc.map (·.1)) →
      collectDowngradeAux m t.id fuel cur acc =
        .ok (acc ++
          (cur :: B.reverse).map (fun r => (r.id, r.downgradeOperations))) := by
  intro B
  induction B using List.reverseRecOn with
  | nil =>
    intro A C cur acc fuel hV hfuel hfresh
    simp only [List.nil_append] at hV
    have hne : cur.id ≠ t.id :=
      (decomp_id_ne (B := []) (C := C) hw.nodup (by simpa using hV)).symm
    have hstep : ChainStep t cur := chainStep_of_decomp hw.linked hV
    have ht : t ∈ V := by
      rw [hV]
      simp
    obtain ⟨fu, rfl⟩ : ∃ fu, fuel = fu + 1 := ⟨fuel - 1, by omega⟩
    unfold collectDowngradeAux
    rw [if_neg hne]
    have hget : getRevision m cur.downRevisionId = .ok t := by
      rw [hstep.2]
      exact wf_getRevision hw t ht
    rw [hget]
    dsimp only
    rw [dictSet_fresh _ _ _ (hfresh cur (by simp))]
    cases fu with
    | zero =>
      unfold collectDowngradeAux
      rw [if_pos rfl]
      simp
    | succ fu' =>
      unfold collectDowngradeAux
      rw [if_pos rfl]
      simp
  | append_singleton B' b ih =>
    intro A C cur acc fuel hV hfuel hfresh
    have hV2 : V = A ++ t :: (B' ++ b :: cur :: C) := by
      rw [hV]
      simp
    have hne : cur.id ≠ t.id :=
      (decomp_id_ne (A := A) (B := B' ++ [b]) hw.nodup hV).symm
    have hstep : ChainStep b cur :=
      chainStep_of_decomp (A := A ++ t :: B') (Y := C) hw.linked
        (by rw [hV2]; simp)
    have hb : b ∈ V := by
      rw [hV2]
      simp
    obtain ⟨fu, rfl⟩ : ∃ fu, fuel = fu + 1 := ⟨fuel - 1, by omega⟩
    unfold collectDowngradeAux
    rw [if_neg hne]
    have hget : getRevision m cur.downRevisionId = .ok b := by
      rw [hstep.2]
      exact wf_getRevision hw b hb
    rw [hget]
    dsimp only
    rw [dictSet_fresh _ _ _ (hfresh cur (by simp))]
    have hfresh' : ∀ r ∈ b :: B'.reverse,
        r.id ∉ (acc ++ [(cur.id, cur.downgradeOperations)]).map (·.1) := by
      intro r hr
      simp only [List.map_append, List.mem_append, List.map_cons,
        List.map_nil, List.mem_singleton, not_or]
      have hr' : r = b ∨ r ∈ B'.reverse := by simpa using hr
      constructor
      · apply hfresh r
        simp only [List.reverse_append, List.reverse_singleton,
          List.singleton_append, List.mem_cons]
        tauto
      · have : r.id ≠ cur.id := by
          apply id_ne_of_append (X := A ++ t :: (B' ++ [b])) (Y := cur :: C)
            hw.nodup (by rw [hV]; simp)
          · rcases List.mem_cons.mp hr with rfl | hr'
            · simp
            · have : r ∈ B' := List.mem_reverse.mp hr'
              simp [this]
          · simp
        exact this
    rw [ih A (cur :: C) b _ fu hV2 (by simpa using hfuel) hfresh']
    simp

/-- C2: on any valid chain, `get_upgrade_operations(from, to)` (for `to`
reachable upward from `from`) returns exactly the upgrade operations of
the revisions strictly after `from` up to and including `to`, keyed and
ordered along the chain; `get_downgrade_operations(from, to)` (for `to`
reachable downward) returns the downgrade operations of the revisions
from `from` itself down to but excluding `to`. In particular, on a chain
`base → r1 → r2 → r3`, the upgrade plan from `base` to `r2` is
`{r1: r1.upgrade_ops, r2: r2.upgrade_ops}` and the downgrade plan from
`r3` to `r1` is `{r3: r3.downgrade_ops, r2: r2.downgrade_ops}`. -/
theorem claim_C2_plan_boundaries :
    (∀ (V : List Revision) (m : List (String × Revision))
       (A B C : List Revision) (f t : Revision),
      WellFormedChain V m → V = A ++ f :: (B ++ t :: C) →
      getUpgradeOperations m f.id t.id =
        .ok ((B ++ [t]).map (fun r => (r.id, r.upgradeOperations)))) ∧
    (∀ (V : List Revision) (m : List (String × Revision))
       (A B C : List Revision) (f t : Revision),
      WellFormedChain V m → V = A ++ t :: (B ++ f :: C) →
      getDowngradeOperations m f.id t.id =
        .ok ((f :: B.reverse).map (fun r => (r.id, r.downgradeOperations)))) := by
  constructor
  · intro V m A B C f t hw hV
    have hf : f ∈ V := by
      rw [hV]
      simp
    unfold getUpgradeOperations
    rw [getDistance_up hw hV, exceptBind_ok,
      if_neg (by omega : ¬ B.length + 1 = 0), wf_getRevision hw f hf,
      exceptBind_ok]
    cases B with
    | nil =>
      have hstep : ChainStep f t :=
        chainStep_of_decomp hw.linked (by simpa using hV)
      have ht : t ∈ V := by
        rw [hV]
        simp
      rw [hstep.1, wf_getRevision hw t ht, exceptBind_ok]
      unfold collectUpgradeAux
      rw [if_pos rfl]
      simp [dictSet]
    | cons b B' =>
      have hstep : ChainStep f b :=
        chainStep_of_decomp hw.linked (by simpa using hV)
      have hb : b ∈ V := by
        rw [hV]
        simp
      rw [hstep.1, wf_getRevision hw b hb, exceptBind_ok]
      have hV' : V = (A ++ [f]) ++ b :: (B' ++ t :: C) := by
        rw [hV]
        simp
      have hfuel : B'.length + 1 ≤ m.length + 1 := by
        have hm : m.length = V.length := by
          rw [hw.map_eq]
          simp
        rw [hm, hV']
        simp
        omega
      rw [collectUpgradeAux_spec hw t B' (A ++ [f]) C b [] (m.length + 1)
        hV' hfuel (by simp)]
      simp
  · intro V m A B C f t hw hV
    have hf : f ∈ V := by
      rw [hV]
      simp
    unfold getDowngradeOperations
    rw [getDistance_down hw hV, exceptBind_ok,
      if_neg (by omega : ¬ B.length + 1 = 0), wf_getRevision hw f hf,
      exceptBind_ok]
    have hfuel : B.length + 1 ≤ m.length + 1 := by
      have hm : m.length = V.length := by
        rw [hw.map_eq]
        simp
      rw [hm, hV]
      simp
      omega
    rw [collectDowngradeAux_spec hw t B A C f [] (m.length + 1) hV hfuel
      (by simp)]
    simp

/-- Concrete four-revision chain `base → r1 → r2 → r3` for the C2
witness. -/
def wBase : Revision :=
  { id := "base", description := "init", upRevisionId := some "r1" }

def wR1 : Revision :=
  { id := "r1", description := "one", upRevisionId := some "r2",
    downRevisionId := some "base",
    upgradeOperations := [.createDropdown "D1" []],
    downgradeOperations := [.archiveDropdown "D1"] }

def wR2 : Revision :=
  { id := "r2", description := "two", upRevisionId := some "r3",
    downRevisionId := some "r1",
    upgradeOperations := [.createDropdown "D2" []],
    downgradeOperations := [.archiveDropdown "D2"] }

def wR3 : Revision :=
  { id := "r3", description := "three", upRevisionId := none,
    downRevisionId := some "r2",
    upgradeOperations := [.createDropdown "D3" []],
    downgradeOperations := [.archiveDropdown "D3"] }

def wChain : List Revision := [wBase, wR1, wR2, wR3]

def wMap : List (String × Revision) := wChain.map (fun r => (r.id, r))

theorem wChain_wf : WellFormedChain wChain wMap := by
  refine ⟨rfl, ?_, ?_, ?_, ?_⟩
  · simp [wChain, List.chain'_cons, ChainStep, wBase, wR1, wR2, wR3]
  · decide
  · decide
  · intro r hr
    simp only [wChain, List.getLast?] at hr
    simp only [Option.mem_def, Option.some.injEq] at hr
    subst hr
    rfl

/-- C2 witness: the spec's concrete chain `base → r1 → r2 → r3`, for
`upgrade_plan(base, r2)` and `downgrade_plan(r3, r1)`. -/
theorem claim_C2_plan_boundaries_witness :
    getUpgradeOperations wMap "base" "r2" =
      .ok [("r1", [.createDropdown "D1" []]),
           ("r2", [.createDropdown "D2" []])] ∧
    getDowngradeOperations wMap "r3" "r1" =
      .ok [("r3", [.archiveDropdown "D3"]),
           ("r2", [.archiveDropdown "D2"])] := by
  constructor
  · exact claim_C2_plan_boundaries.1 wChain wMap [] [wR1] [wR3] wBase wR2
      wChain_wf rfl
  · exact claim_C2_plan_boundaries.2 wChain wMap [wBase] [wR2] [] wR3 wR1
      wChain_wf rfl

/-! ## Chain-integrity claims: structure of a successful validation -/

/-- The persisted linking relation: `b` points down to `a`. -/
def DownStep (a b : Revision) : Prop := b.downRevisionId = some a.id

theorem chain'_rel_of_decomp {R : Revision → Revision → Prop}
    {V A Y : List Revision} {a b : Revision}
    (hl : V.Chain' R) (hV : V = A ++ a :: b :: Y) : R a b := by
  subst hV
  rcases List.chain'_append.mp hl with ⟨_, h2, _⟩
  exact (List.chain'_cons.mp h2).1

theorem dictGet_eq_none {α : Type} (m : List (String × α)) (k : String)
    (h : dictGet m k = none) : k ∉ m.map (·.1) := by
  induction m with
  | nil => simp
  | cons hd tl ih =>
    obtain ⟨k0, v0⟩ := hd
    by_cases h0 : k0 = k
    · simp [dictGet, h0] at h
    · simp only [dictGet, if_neg h0] at h
      simp only [List.map_cons, List.mem_cons, not_or]
      exact ⟨fun he => h0 he.symm, ih h⟩

theorem dictSet_keys_of_mem {α : Type} (m : List (String × α)) (k : String)
    (v : α) (h : k ∈ m.map (·.1)) :
    (dictSet m k v).map (·.1) = m.map (·.1) := by
  induction m with
  | nil => simp at h
  | cons hd tl ih =>
    obtain ⟨k0, v0⟩ := hd
    by_cases h0 : k0 = k
    · subst h0
      simp [dictSet]
    · simp only [List.map_cons, List.mem_cons] at h
      rcases h with h | h
    
      · exact absurd h.symm h0
      · simp [dictSet, h0, ih h]

theorem eq_of_id_eq {V : List Revision} {p q : Revision}
    (hnd : (V.map (·.id)).Nodup) (hp : p ∈ V) (hq : q ∈ V)
    (he : p.id = q.id) : p = q := by
  induction V with
  | nil => cases hp
  | cons v vs ih =>
    simp only [List.map_cons, List.nodup_cons] at hnd
    rcases List.mem_cons.mp hp with rfl | hp'
    · rcases List.mem_cons.mp hq with rfl | hq'
      · rfl
      · exact absurd (he ▸ List.mem_map_of_mem _ hq') hnd.1
    · rcases List.mem_cons.mp hq with rfl | hq'
      · exact absurd (he ▸ List.mem_map_of_mem _ hp') hnd.1
      · exact ih hnd.2 hp' hq'

theorem nodup_split_unique {p : Revision} :
    ∀ (A1 A2 R1 R2 : List Revision),
      (A1 ++ p :: R1).Nodup →
      A1 ++ p :: R1 = A2 ++ p :: R2 → A1 = A2 ∧ R1 = R2 := by
  intro A1
  induction A1 with
  | nil =>
    intro A2 R1 R2 hnd h
    cases A2 with
    | nil =>
      simp only [List.nil_append] at h
      exact ⟨rfl, (List.cons.inj h).2⟩
    | cons b A2' =>
      simp only [List.nil_append, List.cons_append] at h
      obtain ⟨rfl, h3⟩ := List.cons.inj h
      exfalso
      have hp : p ∈ A2' ++ p :: R2 := by simp
      rw [← h3] at hp
      have hnd' : (p :: R1).Nodup := by simpa using hnd
      exact (List.nodup_cons.mp hnd').1 hp
  | cons a A1' ih =>
    intro A2 R1 R2 hnd h
    cases A2 with
    | nil =>
      simp only [List.cons_append, List.nil_append] at h
      obtain ⟨rfl, h3⟩ := List.cons.inj h
      exfalso
      have hmem : a ∈ A1' ++ a :: R1 := by simp
      have hnd' : (a :: (A1' ++ a :: R1)).Nodup := by
        rw [List.cons_append] at hnd
        exact hnd
      exact (List.nodup_cons.mp hnd').1 hmem
    | cons b A2' =>
      simp only [List.cons_append] at h
      obtain ⟨rfl, h3⟩ := List.cons.inj h
      have hnd' : (a :: (A1' ++ p :: R1)).Nodup := by
        rw [List.cons_append] at hnd
        exact hnd
      obtain ⟨h4, h5⟩ := ih A2' R1 R2 (List.nodup_cons.mp hnd').2 h3
      exact ⟨by rw [h4], h5⟩

/-- In a down-linked list whose head has no down link, every member with
`down_id = some t` sits right after the member whose id is `t`. -/
theorem mem_down_split {Wf : List Revision} {x : Revision} {t : String}
    (hch : Wf.Chain' DownStep)
    (hh : ∀ a ∈ Wf.head?, a.downRevisionId = none)
    (hx : x ∈ Wf) (ht : x.downRevisionId = some t) :
    ∃ A B p, Wf = A ++ p :: x :: B ∧ p.id = t := by
  obtain ⟨X, Y, hXY⟩ := List.append_of_mem hx
  cases X with
  | nil =>
    exfalso
    have : x.downRevisionId = none := by
      apply hh
      rw [hXY]
      simp
    rw [this] at ht
    cases ht
  | cons hd tl =>
    rcases List.eq_nil_or_concat (hd :: tl) with h | ⟨X', p, hX'⟩
    · cases h
    · refine ⟨X', Y, p, ?_, ?_⟩
      · rw [hXY, hX']
        simp
      · have hstep : DownStep p x := by
          apply chain'_rel_of_decomp hch (A := X') (Y := Y)
          rw [hXY, hX']
          simp
        unfold DownStep at hstep
        rw [hstep] at ht
        exact Option.some.inj ht

/-- In a down-linked list, every member is the last one or has a
successor pointing down to it. -/
theorem chain'_succ_exists {Wf : List Revision} {x : Revision}
    (hch : Wf.Chain' DownStep) (hx : x ∈ Wf) :
    Wf.getLast? = some x ∨ ∃ z ∈ Wf, z.downRevisionId = some x.id := by
  obtain ⟨X, Y, hXY⟩ := List.append_of_mem hx
  cases Y with
  | nil =>
    left
    rw [hXY]
    exact List.getLast?_concat X
  | cons z Y' =>
    right
    refine ⟨z, ?_, ?_⟩
    · rw [hXY]
      simp
    · exact chain'_rel_of_decomp hch hXY

theorem validateLinks_ok_structure (all : List Revision) :
    ∀ (fuel : Nat) (cur : Revision) (W : List Revision)
      (map mfinal : List (String × Revision)),
      validateLinks all fuel cur map = .ok mfinal →
      map.map (·.1) = (W ++ [cur]).map (·.id) →
      ((W ++ [cur]).map (·.id)).Nodup →
      (W ++ [cur]).Chain' DownStep →
      (∀ a ∈ (W ++ [cur]).head?, a.downRevisionId = none) →
      (∃ rest, ((W ++ [cur]) ++ rest).Perm all) →
      ∃ Wf : List Revision, Wf.Perm all ∧ Wf.Chain' DownStep ∧
        (∀ a ∈ Wf.head?, a.downRevisionId = none) := by
  intro fuel
  induction fuel with
  | zero =>
    intro cur W map mfinal h hkeys hnd hch hhead hrest
    by_cases hc : map.length < all.length
    · unfold validateLinks at h
      rw [if_pos hc] at h
      cases h
    · obtain ⟨rest, hperm⟩ := hrest
      have hlen1 : map.length = (W ++ [cur]).length := by
        have := congrArg List.length hkeys
        simpa using this
      have hlen2 : (W ++ [cur]).length + rest.length = all.length := by
        have := hperm.length_eq
        simp only [List.length_append] at this ⊢
        omega
      have hrest0 : rest = [] := by
        have : all.length ≤ map.length := le_of_not_lt hc
        rw [hlen1] at this
        have : rest.length = 0 := by omega
        exact List.length_eq_zero.mp this
      subst hrest0
      exact ⟨W ++ [cur], by simpa using hperm, hch, hhead⟩
  | succ fu ih =>
    intro cur W map mfinal h hkeys hnd hch hhead hrest
    by_cases hc : map.length < all.length
    · unfold validateLinks at h
      rw [if_pos hc] at h
      cases hf : all.filter (fun r => r.downRevisionId = some cur.id) with
      | nil => rw [hf] at h; cases h
      | cons u rest' =>
        cases rest' with
        | cons v rest'' => rw [hf] at h; cases h
        | nil =>
          rw [hf] at h
          dsimp only [] at h
          have hu_all : u ∈ all ∧ u.downRevisionId = some cur.id := by
            have : u ∈ all.filter (fun r => r.downRevisionId = some cur.id) := by
              rw [hf]
              simp
            have h2 := List.mem_filter.mp this
            exact ⟨h2.1, by simpa using h2.2⟩
          have hcur_mem : cur.id ∈ map.map (·.1) := by
            rw [hkeys]
            simp
          have hkeys' : (dictSet map cur.id
              { cur with upRevisionId := some u.id }).map (·.1) =
              (W ++ [cur]).map (·.id) := by
            rw [dictSet_keys_of_mem _ _ _ hcur_mem, hkeys]
          cases hg : dictGet (dictSet map cur.id
              { cur with upRevisionId := some u.id }) u.id with
          | some r => rw [hg] at h; cases h
          | none =>
            rw [hg] at h
            have hu_fresh : u.id ∉ ((W ++ [cur]).map (·.id)) := by
              rw [← hkeys']
              exact dictGet_eq_none _ _ hg
            have hkeys'' : (dictSet (dictSet map cur.id
                { cur with upRevisionId := some u.id }) u.id u).map (·.1) =
                (((W ++ [cur]) ++ [u]).map (·.id)) := by
              rw [dictSet_fresh _ _ _ (by rw [hkeys']; exact hu_fresh)]
              simp [hkeys']
            have hnd'' : (((W ++ [cur]) ++ [u]).map (·.id)).Nodup := by
              simp only [List.map_append, List.map_cons, List.map_nil]
              rw [List.nodup_append]
              refine ⟨by simpa using hnd, List.nodup_singleton _, ?_⟩
              intro a ha
              simp only [List.mem_singleton]
              intro hb
              subst hb
              exact hu_fresh (by simpa using ha)
            have hch'' : ((W ++ [cur]) ++ [u]).Chain' DownStep := by
              rw [List.chain'_append]
              refine ⟨hch, List.chain'_singleton _, ?_⟩
              intro x hx y hy
              rw [List.getLast?_concat] at hx
              simp only [Option.mem_def, Option.some.injEq] at hx
              simp only [List.head?_cons, Option.mem_def,
                Option.some.injEq] at hy
              subst hx
              subst hy
              exact hu_all.2
            have hhead'' : ∀ a ∈ ((W ++ [cur]) ++ [u]).head?,
                a.downRevisionId = none := by
              intro a ha
              apply hhead
              cases W with
              | nil => simpa using ha
              | cons w W' => simpa using ha
            have hrest'' : ∃ r2, (((W ++ [cur]) ++ [u]) ++ r2).Perm all := by
              obtain ⟨rest, hperm⟩ := hrest
              have humem : u ∈ (W ++ [cur]) ++ rest := hperm.mem_iff.mpr hu_all.1
              have hu_not : u ∉ W ++ [cur] := by
                intro hin
                exact hu_fresh (List.mem_map_of_mem _ hin)
              have hu_rest : u ∈ rest := by
                rcases List.mem_append.mp humem with h | h
                · exact absurd h hu_not
                · exact h
              refine ⟨rest.erase u, ?_⟩
              have e1 : ((W ++ [cur]) ++ [u]) ++ rest.erase u =
                  (W ++ [cur]) ++ (u :: rest.erase u) := by simp
              rw [e1]
              exact ((List.perm_cons_erase hu_rest).symm.append_left
                (W ++ [cur])).trans hperm
            have h' : validateLinks all fu u
                (dictSet (dictSet map cur.id
                  { cur with upRevisionId := some u.id }) u.id u) =
                .ok mfinal := h
            have := ih u (W ++ [cur]) _ mfinal h' hkeys''
              (by simpa using hnd'') (by simpa using hch'')
              (by simpa using hhead'') (by simpa using hrest'')
            exact this
    · unfold validateLinks at h
      rw [if_neg hc] at h
      obtain ⟨rest, hperm⟩ := hrest
      have hlen1 : map.length = (W ++ [cur]).length := by
        have := congrArg List.length hkeys
        simpa using this
      have hlen2 : (W ++ [cur]).length + rest.length = all.length := by
        have := hperm.length_eq
        simp only [List.length_append] at this ⊢
        omega
      have hrest0 : rest = [] := by
        have : all.length ≤ map.length := le_of_not_lt hc
        rw [hlen1] at this
        have : rest.length = 0 := by omega
        exact List.length_eq_zero.mp this
      subst hrest0
      exact ⟨W ++ [cur], by simpa using hperm, hch, hhead⟩

theorem validateRevisions_ok_structure (all : List Revision)
    (m : List (String × Revision)) (h : validateRevisions all = .ok m)
    (hne : all ≠ []) :
    (all.map (·.id)).Nodup ∧
    ∃ Wf : List Revision, Wf.Perm all ∧ Wf.Chain' DownStep ∧
      (∀ a ∈ Wf.head?, a.downRevisionId = none) := by
  simp only [validateRevisions] at h
  have h0 : ¬ all.length = 0 := by simpa using hne
  rw [if_neg h0] at h
  by_cases h1 : (all.map (·.id)).filter
      (fun i => 1 < (all.map (·.id)).count i) ≠ []
  · rw [if_pos h1] at h
    cases h
  · rw [if_neg h1] at h
    push_neg at h1
    have hnd : (all.map (·.id)).Nodup := by
      rw [List.nodup_iff_count_le_one]
      intro a
      by_contra hcount
      push_neg at hcount
      have ha : a ∈ all.map (·.id) := by
        rw [← List.count_pos_iff]
        omega
      have hmem : a ∈ (all.map (·.id)).filter
          (fun i => 1 < (all.map (·.id)).count i) :=
        List.mem_filter.mpr ⟨ha, by simpa using hcount⟩
      rw [h1] at hmem
      cases hmem
    refine ⟨hnd, ?_⟩
    cases hf : all.filter (fun r => r.downRevisionId = none) with
    | nil => rw [hf] at h; cases h
    | cons base rest =>
      cases rest with
      | cons b2 r2 => rw [hf] at h; cases h
      | nil =>
        rw [hf] at h
        dsimp only [] at h
        have hbase : base ∈ all ∧ base.downRevisionId = none := by
          have hb : base ∈ all.filter (fun r => r.downRevisionId = none) := by
            rw [hf]
            simp
          have h2 := List.mem_filter.mp hb
          exact ⟨h2.1, by simpa using h2.2⟩
        apply validateLinks_ok_structure all all.length base [] _ m h
        · simp [dictSet]
        · simp
        · simp
        · intro a ha
          simp only [List.nil_append, List.head?_cons, Option.mem_def,
            Option.some.injEq] at ha
          subst ha
          exact hbase.2
        · refine ⟨all.erase base, ?_⟩
          simpa using (List.perm_cons_erase hbase.1).symm

theorem down_eq_unique {Wf : List Revision} {t : String} {x y : Revision}
    (hch : Wf.Chain' DownStep) (hnd : (Wf.map (·.id)).Nodup)
    (hh : ∀ a ∈ Wf.head?, a.downRevisionId = none)
    (hx : x ∈ Wf) (hy : y ∈ Wf)
    (htx : x.downRevisionId = some t) (hty : y.downRevisionId = some t) :
    x = y := by
  obtain ⟨A1, B1, p, hW1, hp⟩ := mem_down_split hch hh hx htx
  obtain ⟨A2, B2, q, hW2, hq⟩ := mem_down_split hch hh hy hty
  have hpq : p = q := by
    apply eq_of_id_eq hnd
    · rw [hW1]
      simp
    · rw [hW2]
      simp
    · rw [hp, hq]
  subst hpq
  have hWnd : Wf.Nodup := List.Nodup.of_map _ hnd
  have hnd1 : (A1 ++ p :: (x :: B1)).Nodup := by
    rw [← hW1]
    exact hWnd
  have heq : A1 ++ p :: (x :: B1) = A2 ++ p :: (y :: B2) := by
    rw [← hW1, ← hW2]
  obtain ⟨_, hR⟩ := nodup_split_unique A1 A2 (x :: B1) (y :: B2) hnd1 heq
  exact (List.cons.inj hR).1

theorem chain'_tail_down : ∀ (ws : List Revision) (w : Revision),
    List.Chain' DownStep (w :: ws) → ∀ x ∈ ws, x.downRevisionId ≠ none := by
  intro ws
  induction ws with
  | nil =>
    intro w _ x hx
    cases hx
  | cons a ws' ih =>
    intro w hch x hx
    have h1 : DownStep w a := (List.chain'_cons.mp hch).1
    rcases List.mem_cons.mp hx with rfl | hx'
    · intro he
      unfold DownStep at h1
      rw [he] at h1
      cases h1
    · exact ih a (List.chain'_cons.mp hch).2 x hx'

/-- `down_step`: resolving a record's `down_revision_id` within the raw
record set (the relation whose cycles the claim speaks about). -/
def downStepFn (all : List Revision) (r : Revision) : Option Revision :=
  r.downRevisionId.bind (fun t => all.find? (fun s => s.id = t))

/-- Iterating `down_step` within the raw record set. -/
def iterDown (all : List Revision) : Nat → Revision → Option Revision
  | 0, r => some r
  | n + 1, r => (downStepFn all r).bind (iterDown all n)

theorem downStep_split {Wf all : List Revision} {x z : Revision}
    (hch : Wf.Chain' DownStep) (hnd : (Wf.map (·.id)).Nodup)
    (hh : ∀ a ∈ Wf.head?, a.downRevisionId = none) (hperm : Wf.Perm all)
    (hx : x ∈ Wf) (hz : downStepFn all x = some z) :
    ∃ A B, Wf = A ++ z :: x :: B := by
  unfold downStepFn at hz
  cases hd : x.downRevisionId with
  | none => rw [hd] at hz; cases hz
  | some t =>
    rw [hd] at hz
    dsimp only [Option.bind] at hz
    have hz_mem : z ∈ all := List.mem_of_find?_eq_some hz
    have hz_id : z.id = t := by
      have := List.find?_some hz
      simpa using this
    obtain ⟨A, B, p, hW, hp⟩ := mem_down_split hch hh hx hd
    have hpz : z = p := by
      apply eq_of_id_eq hnd (hperm.mem_iff.mpr hz_mem)
      · rw [hW]
        simp
      · rw [hz_id, hp]
    refine ⟨A, B, ?_⟩
    rw [hW, hpz]

theorem iterDown_pos {Wf all : List Revision}
    (hch : Wf.Chain' DownStep) (hnd : (Wf.map (·.id)).Nodup)
    (hh : ∀ a ∈ Wf.head?, a.downRevisionId = none) (hperm : Wf.Perm all) :
    ∀ (n : Nat) (x y : Revision), x ∈ Wf → iterDown all n x = some y →
      ∃ P M, Wf = P ++ y :: M ∧ (n ≠ 0 → x ∈ M) := by
  intro n
  induction n with
  | zero =>
    intro x y hx h
    have hxy : y = x := by
      simpa [iterDown] using h.symm
    subst hxy
    obtain ⟨P, M, hPM⟩ := List.append_of_mem hx
    exact ⟨P, M, hPM, fun h0 => absurd rfl h0⟩
  | succ k ih =>
    intro x y hx h
    unfold iterDown at h
    cases hz : downStepFn all x with
    | none => rw [hz] at h; cases h
    | some z =>
      rw [hz] at h
      dsimp only [Option.bind] at h
      obtain ⟨A, B, hW⟩ := downStep_split hch hnd hh hperm hx hz
      have hzW : z ∈ Wf := by
        rw [hW]
        simp
      obtain ⟨P, M, hPM, hstrict⟩ := ih z y hzW h
      have hWnd : Wf.Nodup := List.Nodup.of_map _ hnd
      have hxM : x ∈ M := by
        by_cases hk : k = 0
        · subst hk
          have hzy : y = z := by
            simpa [iterDown] using h.symm
          subst hzy
          obtain ⟨_, hMB⟩ := nodup_split_unique P A M (x :: B)
            (by rw [← hPM]; exact hWnd) (by rw [← hPM, ← hW])
          rw [hMB]
          simp
        · have hzM : z ∈ M := hstrict hk
          obtain ⟨M1, M2, hM⟩ := List.append_of_mem hzM
          have h1 : Wf = (P ++ y :: M1) ++ z :: M2 := by
            rw [hPM, hM]
            simp
          obtain ⟨_, hM2⟩ := nodup_split_unique (P ++ y :: M1) A M2 (x :: B)
            (by rw [← h1]; exact hWnd) (by rw [← h1, ← hW])
          rw [hM, hM2]
          simp
      exact ⟨P, M, hPM, fun _ => hxM⟩

/-- C3: chain load/validate rejects malformed record sets and accepts
well-formed ones — (i) two records with `down_id == null` fail; (ii) a
fork (one record is the `down_id` of two others) fails; (iii) a break
(two distinct records both without successor) fails; (iv) a `down_id`
cycle fails; (v) a singleton set whose record has `down_id == null` loads
successfully, with that record as the whole chain (hence both base and
tip). -/
theorem claim_C3_chain_integrity :
    (∀ all : List Revision,
      2 ≤ (all.filter (fun r => r.downRevisionId = none)).length →
      ∀ m, validateRevisions all ≠ .ok m) ∧
    (∀ (all : List Revision) (t : String),
      2 ≤ (all.filter (fun r => r.downRevisionId = some t)).length →
      ∀ m, validateRevisions all ≠ .ok m) ∧
    (∀ (all : List Revision) (x y : Revision), x ∈ all → y ∈ all →
      x.id ≠ y.id → (∀ z ∈ all, z.downRevisionId ≠ some x.id) →
      (∀ z ∈ all, z.downRevisionId ≠ some y.id) →
      ∀ m, validateRevisions all ≠ .ok m) ∧
    (∀ (all : List Revision) (r : Revision) (k : Nat), r ∈ all →
      iterDown all (k + 1) r = some r →
      ∀ m, validateRevisions all ≠ .ok m) ∧
    (∀ r : Revision, r.downRevisionId = none →
      validateRevisions [r] = .ok [(r.id, r)]) := by
  refine ⟨?_, ?_, ?_, ?_, ?_⟩
  · -- two bases
    intro all h2 m h
    have hne : all ≠ [] := by
      intro h0
      subst h0
      simp at h2
    obtain ⟨hnd, Wf, hperm, hch, hh⟩ :=
      validateRevisions_ok_structure all m h hne
    have hflen : (Wf.filter (fun r => r.downRevisionId = none)).length =
        (all.filter (fun r => r.downRevisionId = none)).length :=
      (hperm.filter _).length_eq
    cases hWf : Wf with
    | nil =>
      rw [hWf] at hperm
      exact hne (List.Perm.eq_nil hperm.symm)
    | cons w ws =>
      rw [hWf] at hch hh hflen
      have hw : w.downRevisionId = none := hh w (by simp)
      have hws : ws.filter (fun r => r.downRevisionId = none) = [] := by
        apply List.filter_eq_nil_iff.mpr
        intro x hx
        simpa using chain'_tail_down ws w hch x hx
      rw [List.filter_cons_of_pos (by simpa using hw), hws] at hflen
      rw [← hflen] at h2
      simp at h2
  · -- fork
    intro all t h2 m h
    have hne : all ≠ [] := by
      intro h0
      subst h0
      simp at h2
    obtain ⟨hnd, Wf, hperm, hch, hh⟩ :=
      validateRevisions_ok_structure all m h hne
    cases hF : all.filter (fun r => r.downRevisionId = some t) with
    | nil => rw [hF] at h2; simp at h2
    | cons x F' =>
      cases F' with
      | nil => rw [hF] at h2; simp at h2
      | cons y F'' =>
        have hxf : x ∈ all.filter (fun r => r.downRevisionId = some t) := by
          rw [hF]; simp
        have hyf : y ∈ all.filter (fun r => r.downRevisionId = some t) := by
          rw [hF]; simp
        have hx := List.mem_filter.mp hxf
        have hy := List.mem_filter.mp hyf
        have hFnd : ((all.filter
            (fun r => r.downRevisionId = some t)).map (·.id)).Nodup :=
          ((List.filter_sublist all).map (·.id)).nodup hnd
        have hxyne : x.id ≠ y.id := by
          rw [hF] at hFnd
          simp only [List.map_cons, List.nodup_cons, List.mem_cons,
            not_or] at hFnd
          exact hFnd.1.1
        have hndW : (Wf.map (·.id)).Nodup :=
          ((hperm.map (·.id)).nodup_iff).mpr hnd
        have hxy : x = y := down_eq_unique hch hndW hh
          (hperm.mem_iff.mpr hx.1) (hperm.mem_iff.mpr hy.1)
          (by simpa using hx.2) (by simpa using hy.2)
        exact hxyne (by rw [hxy])
  · -- break
    intro all x y hx hy hxy hnx hny m h
    have hne : all ≠ [] := by
      intro h0
      subst h0
      cases hx
    obtain ⟨hnd, Wf, hperm, hch, hh⟩ :=
      validateRevisions_ok_structure all m h hne
    have hxW : x ∈ Wf := hperm.mem_iff.mpr hx
    have hyW : y ∈ Wf := hperm.mem_iff.mpr hy
    have hxl : Wf.getLast? = some x := by
      rcases chain'_succ_exists hch hxW with h1 | ⟨z, hzW, hz⟩
      · exact h1
      · exact absurd hz (hnx z (hperm.mem_iff.mp hzW))
    have hyl : Wf.getLast? = some y := by
      rcases chain'_succ_exists hch hyW with h1 | ⟨z, hzW, hz⟩
      · exact h1
      · exact absurd hz (hny z (hperm.mem_iff.mp hzW))
    rw [hxl] at hyl
    exact hxy (by rw [Option.some.inj hyl])
  · -- cycle
    intro all r k hr hcyc m h
    have hne : all ≠ [] := by
      intro h0
      subst h0
      cases hr
    obtain ⟨hnd, Wf, hperm, hch, hh⟩ :=
      validateRevisions_ok_structure all m h hne
    have hndW : (Wf.map (·.id)).Nodup :=
      ((hperm.map (·.id)).nodup_iff).mpr hnd
    have hrW : r ∈ Wf := hperm.mem_iff.mpr hr
    obtain ⟨P, M, hPM, hstrict⟩ :=
      iterDown_pos hch hndW hh hperm (k + 1) r r hrW hcyc
    have hrM : r ∈ M := hstrict (by omega)
    have hWnd : Wf.Nodup := List.Nodup.of_map _ hndW
    rw [hPM] at hWnd
    have : (r :: M).Nodup := (List.nodup_append.mp hWnd).2.1
    exact (List.nodup_cons.mp this).1 hrM
  · -- singleton success
    intro r hr
    simp [validateRevisions, validateLinks, dictSet, hr]

/-- C3 witness: a singleton record set with `down_id == null` loads
successfully with that record as the whole chain. -/
theorem claim_C3_chain_integrity_witness :
    validateRevisions [{ id := "r0", description := "init" }] =
      .ok [("r0", { id := "r0", description := "init" })] :=
  claim_C3_chain_integrity.2.2.2.2 { id := "r0", description := "init" } rfl
